import Mathlib

/-!
Verification development for the random-connect matchmaking and relay engine
(`random_connect.py`).  Text is modelled as `List Char`; the phone-number
redaction layer is modelled by a small total matcher for the concrete regular
expressions appearing in the source, with Python `re.sub` semantics (leftmost,
non-overlapping, greedy with backtracking) for those patterns.
-/

set_option maxRecDepth 10000

abbrev Str := List Char

/-! ### Character classes used by the source's patterns -/

/-- ASCII decimal digit, the `\d` class. -/
def isDigitC (c : Char) : Bool := c.isDigit

/-- The separator class `[-.\s]`. -/
def isSepC (c : Char) : Bool :=
  c = '-' || c = '.' || c = ' ' || c = '\t' || c = '\n' || c = '\r' || c = '\x0b' || c = '\x0c'

/-- The whitespace class `\s`. -/
def isSpaceC (c : Char) : Bool :=
  c = ' ' || c = '\t' || c = '\n' || c = '\r' || c = '\x0b' || c = '\x0c'

/-- Word character for `\b` semantics: letters, digits, underscore. -/
def isWordC (c : Char) : Bool := c.isAlphanum || c = '_'

def isWordO : Option Char → Bool
  | none => false
  | some c => isWordC c

/-- Word boundary between a previous character and a next character. -/
def atBnd (prev next : Option Char) : Bool := isWordO prev != isWordO next

/-! ### A total matcher for the source's patterns

An atom is either a character-class repetition `f{lo,hi}` (`hi = none` means
unbounded, as in `\d{10,}`) or a word boundary `\b`.  A pattern is a list of
atoms; every pattern of the source is of this shape (no alternation, no
groups), so greedy matching with backtracking reproduces Python's behaviour. -/

inductive Atom where
  | cls (f : Char → Bool) (lo : Nat) (hi : Option Nat)
  | bnd

/-- Length of the maximal prefix of `s` whose characters satisfy `f`. -/
def countCls (f : Char → Bool) : Str → Nat
  | [] => 0
  | c :: r => if f c then countCls f r + 1 else 0

/-- `[top, top-1, ..., lo]`; empty when `top < lo`.  Greedy candidate order. -/
def downFrom (top lo : Nat) : List Nat :=
  (List.range (top + 1 - lo)).map (fun i => top - i)

/-- First success of `f` along the list. -/
def firstSome (f : Nat → Option Nat) : List Nat → Option Nat
  | [] => none
  | k :: ks => match f k with
    | some r => some r
    | none => firstSome f ks

/-- Last character of `l`, or `prev` when `l` is empty: the character just
before the current position after consuming `l`. -/
def lastOf (prev : Option Char) (l : Str) : Option Char :=
  match l.getLast? with
  | some c => some c
  | none => prev

/-- Greedy backtracking matcher: the length of the match of `p` at the start
of `s` (with `prev` the character just before `s`), or `none`.  For the
alternation-free patterns of the source this is exactly Python's semantics. -/
def matchLen : List Atom → Option Char → Str → Option Nat
  | [], _, _ => some 0
  | .bnd :: rest, prev, s =>
      if atBnd prev s.head? then matchLen rest prev s else none
  | .cls f lo hi :: rest, prev, s =>
      let n := countCls f s
      let top := match hi with
        | some h => min n h
        | none => n
      firstSome
        (fun k => (matchLen rest (lastOf prev (s.take k)) (s.drop k)).map (k + ·))
        (downFrom top lo)

/-- Python `re.sub(p, rep, s)`: scan left to right over the original string,
replacing each non-overlapping match (zero-length matches do not occur for the
source's patterns and are treated as non-matches). -/
def subFrom (p : List Atom) (rep : Str) : Option Char → Str → Str
  | _, [] => []
  | prev, c :: rest =>
      match matchLen p prev (c :: rest) with
      | some (L + 1) =>
          rep ++ subFrom p rep (lastOf prev ((c :: rest).take (L + 1))) ((c :: rest).drop (L + 1))
      | _ => c :: subFrom p rep (some c) rest
termination_by _ s => s.length
decreasing_by
  all_goals simp_wf
  all_goals omega

/-- Fuel-passing version of `subFrom` (structural recursion, so that concrete
instances reduce inside the kernel); when `fuel` is at least `s.length` it
agrees with `subFrom` (`subFromN_eq`). -/
def subFromN (p : List Atom) (rep : Str) : Nat → Option Char → Str → Str
  | _, _, [] => []
  | 0, _, s => s
  | fuel+1, prev, c :: rest =>
      match matchLen p prev (c :: rest) with
      | some (L + 1) =>
          rep ++ subFromN p rep fuel (lastOf prev ((c :: rest).take (L + 1)))
            ((c :: rest).drop (L + 1))
      | _ => c :: subFromN p rep fuel (some c) rest

/-- Python `re.sub(p, "[hidden]", s)`. -/
def reSub (p : List Atom) (s : Str) : Str := subFromN p "[hidden]".data s.length none s

theorem subFromN_eq (p : List Atom) (rep : Str) :
    ∀ (fuel : Nat) (prev : Option Char) (s : Str), s.length ≤ fuel →
      subFromN p rep fuel prev s = subFrom p rep prev s := by
  intro fuel
  induction fuel with
  | zero =>
    intro prev s hs
    cases s with
    | nil => rw [subFromN, subFrom]
    | cons c rest => simp at hs
  | succ f ih =>
    intro prev s hs
    cases s with
    | nil => rw [subFromN, subFrom]
    | cons c rest =>
      rw [subFromN, subFrom]
      cases hm : matchLen p prev (c :: rest) with
      | none =>
        simp only []
        exact congrArg (c :: ·) (ih (some c) rest (by simp at hs; omega))
      | some n =>
        cases n with
        | zero =>
          simp only []
          exact congrArg (c :: ·) (ih (some c) rest (by simp at hs; omega))
        | succ L =>
          simp only []
          exact congrArg (rep ++ ·) (ih _ _ (by simp at hs ⊢; omega))

theorem reSub_def (p : List Atom) (s : Str) :
    reSub p s = subFrom p "[hidden]".data none s :=
  subFromN_eq p "[hidden]".data s.length none s (le_refl _)

/-! ### The source's patterns (`self.phone_patterns` plus the catch-all) -/

def litC (c : Char) : Atom := .cls (fun d => d = c) 1 (some 1)

/-- `\+?\d{1,4}[-.\s]?\d{10,}` — international format. -/
def pat1 : List Atom :=
  [.cls (fun c => c = '+') 0 (some 1), .cls isDigitC 1 (some 4),
   .cls isSepC 0 (some 1), .cls isDigitC 10 none]

/-- `\d{10,}` — simple 10+ digit numbers. -/
def pat2 : List Atom := [.cls isDigitC 10 none]

/-- `\(\d{3}\)\s?\d{3}-?\d{4}` — US format. -/
def pat3 : List Atom :=
  [litC '(', .cls isDigitC 3 (some 3), litC ')', .cls isSpaceC 0 (some 1),
   .cls isDigitC 3 (some 3), .cls (fun c => c = '-') 0 (some 1), .cls isDigitC 4 (some 4)]

/-- `\d{3}[-.\s]?\d{3}[-.\s]?\d{4}`. -/
def pat4 : List Atom :=
  [.cls isDigitC 3 (some 3), .cls isSepC 0 (some 1), .cls isDigitC 3 (some 3),
   .cls isSepC 0 (some 1), .cls isDigitC 4 (some 4)]

/-- `\+91[-.\s]?\d{10}` — Indian format. -/
def pat5 : List Atom :=
  [litC '+', litC '9', litC '1', .cls isSepC 0 (some 1), .cls isDigitC 10 (some 10)]

/-- `91[-.\s]?\d{10}` — Indian format without `+`. -/
def pat6 : List Atom :=
  [litC '9', litC '1', .cls isSepC 0 (some 1), .cls isDigitC 10 (some 10)]

/-- `\d{5}[-.\s]?\d{5}`. -/
def pat7 : List Atom :=
  [.cls isDigitC 5 (some 5), .cls isSepC 0 (some 1), .cls isDigitC 5 (some 5)]

/-- `\d{4}[-.\s]?\d{3}[-.\s]?\d{3}`. -/
def pat8 : List Atom :=
  [.cls isDigitC 4 (some 4), .cls isSepC 0 (some 1), .cls isDigitC 3 (some 3),
   .cls isSepC 0 (some 1), .cls isDigitC 3 (some 3)]

/-- `\d{2}[-.\s]?\d{4}[-.\s]?\d{4}`. -/
def pat9 : List Atom :=
  [.cls isDigitC 2 (some 2), .cls isSepC 0 (some 1), .cls isDigitC 4 (some 4),
   .cls isSepC 0 (some 1), .cls isDigitC 4 (some 4)]

/-- The ordered list bound to `self.phone_patterns`. -/
def phonePatterns : List (List Atom) := [pat1, pat2, pat3, pat4, pat5, pat6, pat7, pat8, pat9]

/-- `\b\d{8,}\b` — the catch-all applied after the pattern loop. -/
def patB : List Atom := [.bnd, .cls isDigitC 8 none, .bnd]

/-- `mask_phone_numbers`: fold the pattern list over the text, then apply the
catch-all (the empty-text early return is equivalent). -/
def maskL (s : Str) : Str :=
  reSub patB (phonePatterns.foldl (fun t p => reSub p t) s)

/-- `mask_phone_numbers` at `String` type. -/
def mask_phone_numbers (s : String) : String := ⟨maskL s.data⟩

/-! ### Basic lemmas about the matcher's building blocks -/

theorem countCls_le_length (f : Char → Bool) (s : Str) : countCls f s ≤ s.length := by
  induction s with
  | nil => simp [countCls]
  | cons c r ih =>
    simp only [countCls, List.length_cons]
    split <;> omega

theorem sat_of_le_countCls (f : Char → Bool) :
    ∀ (s : Str) (k : Nat), k ≤ countCls f s → ∀ c ∈ s.take k, f c = true := by
  intro s
  induction s with
  | nil => intro k _ c hc; simp at hc
  | cons a r ih =>
    intro k hk c hc
    cases k with
    | zero => simp at hc
    | succ k' =>
      simp only [countCls] at hk
      by_cases hfa : f a = true
      · simp [hfa] at hk
        simp only [List.take_succ_cons, List.mem_cons] at hc
        rcases hc with rfl | hc
        · exact hfa
        · exact ih k' (by omega) c hc
      · simp [hfa] at hk
  

theorem le_countCls_of_sat (f : Char → Bool) :
    ∀ (s : Str) (k : Nat), k ≤ s.length → (∀ c ∈ s.take k, f c = true) → k ≤ countCls f s := by
  intro s
  induction s with
  | nil => intro k hk _; simpa [countCls] using hk
  | cons a r ih =>
    intro k hk hsat
    cases k with
    | zero => omega
    | succ k' =>
      have hfa : f a = true := hsat a (by simp)
      simp only [countCls, hfa, if_true]
      have : k' ≤ countCls f r := by
        refine ih k' (by simpa using hk) ?_
        intro c hc
        exact hsat c (by simp [hc])
      omega

theorem head_digit_of_lt_countCls (f : Char → Bool) :
    ∀ (s : Str) (k : Nat), k < countCls f s → ∃ c, (s.drop k).head? = some c ∧ f c = true := by
  intro s
  induction s with
  | nil => intro k hk; simp [countCls] at hk
  | cons a r ih =>
    intro k hk
    simp only [countCls] at hk
    by_cases hfa : f a = true
    · simp only [hfa, if_true] at hk
      cases k with
      | zero => exact ⟨a, by simp, hfa⟩
      | succ k' => simpa using ih k' (by omega)
    · simp [hfa] at hk

theorem getLast_sat_of_le_countCls (f : Char → Bool) (s : Str) (k : Nat)
    (h1 : 1 ≤ k) (h2 : k ≤ countCls f s) :
    ∃ c, (s.take k).getLast? = some c ∧ f c = true := by
  have hlen : k ≤ s.length := le_trans h2 (countCls_le_length f s)
  have hne : s.take k ≠ [] := by
    have : (s.take k).length = k := by
      rw [List.length_take]; omega
    intro hcontra
    rw [hcontra] at this
    simp at this
    omega
  have hsome : (s.take k).getLast? = some ((s.take k).getLast hne) :=
    List.getLast?_eq_getLast_of_ne_nil hne
  refine ⟨(s.take k).getLast hne, hsome, ?_⟩
  exact sat_of_le_countCls f s k h2 _ (List.getLast_mem hne)

theorem countCls_cons_false {f : Char → Bool} {a : Char} (r : Str) (ha : f a = false) :
    countCls f (a :: r) = 0 := by
  simp [countCls, ha]

theorem mem_downFrom {top lo k : Nat} : k ∈ downFrom top lo ↔ lo ≤ k ∧ k ≤ top := by
  simp only [downFrom, List.mem_map, List.mem_range]
  constructor
  · rintro ⟨i, hi, rfl⟩; omega
  · rintro ⟨h1, h2⟩; exact ⟨top - k, by omega, by omega⟩

theorem downFrom_nil {top lo : Nat} (h : top < lo) : downFrom top lo = [] := by
  have : top + 1 - lo = 0 := by omega
  simp [downFrom, this]

theorem downFrom_cons {top lo : Nat} (h1 : lo ≤ top) (h2 : 1 ≤ top) :
    downFrom top lo = top :: downFrom (top - 1) lo := by
  have : top + 1 - lo = (top - lo) + 1 := by omega
  rw [downFrom, this, List.range_succ_eq_map]
  simp only [List.map_cons, Nat.sub_zero, List.map_map]
  congr 1
  have : top - 1 + 1 - lo = top - lo := by omega
  rw [downFrom, this]
  apply List.map_congr_left
  intro i hi
  simp only [List.mem_range] at hi
  simp only [Function.comp_apply, Nat.succ_eq_add_one]
  omega

theorem firstSome_eq_some {f : Nat → Option Nat} :
    ∀ {ks : List Nat} {r : Nat}, firstSome f ks = some r → ∃ k ∈ ks, f k = some r := by
  intro ks
  induction ks with
  | nil => intro r h; simp [firstSome] at h
  | cons k ks ih =>
    intro r h
    simp only [firstSome] at h
    cases hk : f k with
    | some v => rw [hk] at h; exact ⟨k, by simp, by simp [hk, ← h]⟩
    | none =>
      rw [hk] at h
      rcases ih h with ⟨k', hk', hv⟩
      exact ⟨k', by simp [hk'], hv⟩

theorem firstSome_isSome {f : Nat → Option Nat} :
    ∀ {ks : List Nat} {k : Nat}, k ∈ ks → (f k).isSome → (firstSome f ks).isSome := by
  intro ks
  induction ks with
  | nil => intro k h; simp at h
  | cons a ks ih =>
    intro k hk hs
    simp only [firstSome]
    cases ha : f a with
    | some v => simp
    | none =>
      rcases List.mem_cons.mp hk with rfl | hk'
      · rw [ha] at hs; simp at hs
      · exact ih hk' hs

theorem firstSome_none {f : Nat → Option Nat} :
    ∀ {ks : List Nat}, (∀ k ∈ ks, f k = none) → firstSome f ks = none := by
  intro ks
  induction ks with
  | nil => intro _; rfl
  | cons a ks ih =>
    intro h
    simp only [firstSome, h a (by simp)]
    exact ih (fun k hk => h k (by simp [hk]))

theorem firstSome_congr {f g : Nat → Option Nat} (h : ∀ k, f k = g k) :
    ∀ (ks : List Nat), firstSome f ks = firstSome g ks := by
  intro ks
  induction ks with
  | nil => rfl
  | cons a ks ih => simp only [firstSome, h a, ih]

theorem lastOf_cons (prev : Option Char) (c : Char) (l : Str) :
    lastOf prev (c :: l) = lastOf (some c) l := by
  cases l with
  | nil => simp [lastOf]
  | cons b l' =>
    simp only [lastOf, List.getLast?_cons_cons]
    have hne : (b :: l') ≠ [] := by simp
    rw [List.getLast?_eq_getLast_of_ne_nil hne]

/-! ### Matcher metatheory -/

/-- A pattern without word-boundary atoms. -/
def bndFree : List Atom → Bool
  | [] => true
  | .bnd :: _ => false
  | .cls _ _ _ :: r => bndFree r

/-- `c` can be consumed by some class of `p`. -/
def inAlpha (p : List Atom) (c : Char) : Bool :=
  p.any (fun a => match a with
    | .cls f _ _ => f c
    | .bnd => false)

/-- The minimal number of characters any match of `p` consumes. -/
def minLen : List Atom → Nat
  | [] => 0
  | .bnd :: r => minLen r
  | .cls _ lo _ :: r => lo + minLen r

theorem matchLen_le_length :
    ∀ (p : List Atom) (prev : Option Char) (s : Str) (L : Nat),
      matchLen p prev s = some L → L ≤ s.length := by
  intro p
  induction p with
  | nil => intro prev s L h; simp only [matchLen, Option.some.injEq] at h; omega
  | cons a rest ih =>
    intro prev s L h
    cases a with
    | bnd =>
      simp only [matchLen] at h
      split at h
      · exact ih prev s L h
      · exact absurd h (by simp)
    | cls f lo hi =>
      simp only [matchLen] at h
      rcases firstSome_eq_some h with ⟨k, hk, hfk⟩
      have hktop : k ≤ countCls f s := by
        rcases mem_downFrom.mp hk with ⟨_, h2⟩
        cases hi with
        | none => exact h2
        | some hh => simp at h2; omega
      have hklen : k ≤ s.length := le_trans hktop (countCls_le_length f s)
      rcases Option.map_eq_some'.mp hfk with ⟨m, hm, rfl⟩
      have := ih _ _ _ hm
      rw [List.length_drop] at this
      omega

theorem matchLen_prevIrrel :
    ∀ (p : List Atom), bndFree p = true →
      ∀ (prev prev' : Option Char) (s : Str), matchLen p prev s = matchLen p prev' s := by
  intro p
  induction p with
  | nil => intro _ _ _ _; rfl
  | cons a rest ih =>
    intro hb prev prev' s
    cases a with
    | bnd => simp [bndFree] at hb
    | cls f lo hi =>
      simp only [bndFree] at hb
      simp only [matchLen]
      apply firstSome_congr
      intro k
      rw [ih hb (lastOf prev (s.take k)) (lastOf prev' (s.take k)) (s.drop k)]

/-- Assignment semantics for boundary-free patterns: `MSel p t` holds when the
pattern `p` can consume exactly the characters of `t`. -/
inductive MSel : List Atom → Str → Prop
  | nil : MSel [] []
  | cons {f : Char → Bool} {lo : Nat} {hi : Option Nat} {rest : List Atom} {chunk s : Str} :
      (∀ c ∈ chunk, f c = true) → lo ≤ chunk.length →
      (∀ h, hi = some h → chunk.length ≤ h) →
      MSel rest s → MSel (.cls f lo hi :: rest) (chunk ++ s)

theorem MSel_sound :
    ∀ (p : List Atom), bndFree p = true →
      ∀ (prev : Option Char) (s : Str) (L : Nat),
        matchLen p prev s = some L → MSel p (s.take L) := by
  intro p
  induction p with
  | nil =>
    intro _ prev s L h
    simp only [matchLen, Option.some.injEq] at h
    subst h
    simpa [List.take_zero] using MSel.nil
  | cons a rest ih =>
    intro hb prev s L h
    cases a with
    | bnd => simp [bndFree] at hb
    | cls f lo hi =>
      simp only [bndFree] at hb
      simp only [matchLen] at h
      rcases firstSome_eq_some h with ⟨k, hk, hfk⟩
      rcases Option.map_eq_some'.mp hfk with ⟨m, hm, hL⟩
      subst hL
      rcases mem_downFrom.mp hk with ⟨hlo, htop⟩
      have hkcnt : k ≤ countCls f s := by
        cases hi with
        | none => exact htop
        | some hh => simp at htop; omega
      have hklen : k ≤ s.length := le_trans hkcnt (countCls_le_length f s)
      have hlenk : (s.take k).length = k := by rw [List.length_take]; omega
      have hchunk : ∀ c ∈ s.take k, f c = true := sat_of_le_countCls f s k hkcnt
      have hrest : MSel rest ((s.drop k).take m) := ih hb _ _ _ hm
      have htk : s.take (k + m) = s.take k ++ (s.drop k).take m := List.take_add ..
      rw [htk]
      exact MSel.cons hchunk (by omega)
        (by intro hh hhi; subst hhi; simp at htop; omega) hrest

theorem MSel_complete :
    ∀ (p : List Atom), bndFree p = true →
      ∀ (t r : Str) (prev : Option Char), MSel p t → (matchLen p prev (t ++ r)).isSome := by
  intro p hb t r prev hm
  induction hm generalizing prev r with
  | nil => simp [matchLen]
  | @cons f lo hi rest chunk s hchunk hlo hhi hrest ih =>
    have hbrest : bndFree rest = true := by simpa [bndFree] using hb
    have huc : (chunk ++ s) ++ r = chunk ++ (s ++ r) := by simp
    simp only [matchLen]
    rw [huc]
    have hkcnt : List.length chunk ≤ countCls f (chunk ++ (s ++ r)) := by
      apply le_countCls_of_sat
      · simp
      · intro c hc
        rw [List.take_left] at hc
        exact hchunk c hc
    have hdrop : (chunk ++ (s ++ r)).drop chunk.length = s ++ r := List.drop_left ..
    have hinner : (matchLen rest (lastOf prev ((chunk ++ (s ++ r)).take chunk.length))
        ((chunk ++ (s ++ r)).drop chunk.length)).isSome := by
      rw [hdrop]
      exact ih hbrest _ _
    rcases Option.isSome_iff_exists.mp hinner with ⟨m, hm'⟩
    rw [List.take_left, List.drop_left] at hm'
    cases hi with
    | none =>
      apply firstSome_isSome (mem_downFrom.mpr ⟨hlo, hkcnt⟩)
      simp [hm']
    | some hh =>
      have htop : chunk.length ≤ min (countCls f (chunk ++ (s ++ r))) hh :=
        le_min hkcnt (hhi hh rfl)
      apply firstSome_isSome (mem_downFrom.mpr ⟨hlo, htop⟩)
      simp [hm']

theorem MSel_chars : ∀ {p : List Atom} {t : Str}, MSel p t → ∀ c ∈ t, inAlpha p c = true := by
  intro p t hm
  induction hm with
  | nil => intro c hc; simp at hc
  | @cons f lo hi rest chunk s hchunk _ _ _ ih =>
    intro c hc
    rcases List.mem_append.mp hc with hc | hc
    · simp [inAlpha, List.any_cons]
      exact Or.inl (hchunk c hc)
    · have := ih c hc
      simp only [inAlpha, List.any_cons]
      simp only [inAlpha] at this
      simp [this]

theorem MSel_minLen : ∀ {p : List Atom} {t : Str}, MSel p t → minLen p ≤ t.length := by
  intro p t hm
  induction hm with
  | nil => simp [minLen]
  | @cons f lo hi rest chunk s _ hlo _ _ ih =>
    simp only [minLen, List.length_append]
    omega

theorem matchLen_pos {p : List Atom} (hb : bndFree p = true) (hm1 : 1 ≤ minLen p)
    {prev : Option Char} {s : Str} {L : Nat} (h : matchLen p prev s = some L) : 1 ≤ L := by
  have hsel := MSel_sound p hb prev s L h
  have hlen := MSel_minLen hsel
  have hle := matchLen_le_length p prev s L h
  rw [List.length_take] at hlen
  omega

/-! ### No-match predicates and the structure of `subFrom` output -/

/-- `p` has a positive-length match at the start of `s`. -/
def posMatch (p : List Atom) (prev : Option Char) (s : Str) : Bool :=
  match matchLen p prev s with
  | some (_ + 1) => true
  | _ => false

/-- No position of `s` carries a positive-length match of `p` (with `prev`
the character just before `s`). -/
def noMatchFrom (p : List Atom) : Option Char → Str → Bool
  | _, [] => true
  | prev, c :: rest => !posMatch p prev (c :: rest) && noMatchFrom p (some c) rest

theorem posMatch_eq_true {p : List Atom} {prev : Option Char} {s : Str} :
    posMatch p prev s = true ↔ ∃ L, matchLen p prev s = some (L + 1) := by
  unfold posMatch
  cases h : matchLen p prev s with
  | none => simp
  | some L =>
    cases L with
    | zero => simp
    | succ L' => simp

theorem posMatch_eq_false {p : List Atom} {prev : Option Char} {s : Str} :
    posMatch p prev s = false ↔ ∀ L, matchLen p prev s ≠ some (L + 1) := by
  rw [← Bool.not_eq_true, not_iff_comm.symm]
  simp only [posMatch_eq_true]
  push_neg
  simp

theorem noMatchFrom_cons {p : List Atom} {prev : Option Char} {c : Char} {r : Str} :
    noMatchFrom p prev (c :: r) = true ↔
      posMatch p prev (c :: r) = false ∧ noMatchFrom p (some c) r = true := by
  simp [noMatchFrom]

theorem subFrom_of_noMatch (p : List Atom) (rep : Str) :
    ∀ (s : Str) (prev : Option Char), noMatchFrom p prev s = true → subFrom p rep prev s = s := by
  intro s
  induction s with
  | nil => intro prev _; simp [subFrom]
  | cons c rest ih =>
    intro prev h
    rcases noMatchFrom_cons.mp h with ⟨hpos, htail⟩
    rw [posMatch_eq_false] at hpos
    cases hm : matchLen p prev (c :: rest) with
    | none => rw [subFrom, hm, ih (some c) htail]
    | some L =>
      cases L with
      | zero => rw [subFrom, hm, ih (some c) htail]
      | succ L' => exact absurd hm (hpos L')

theorem posMatch_prevIrrel {p : List Atom} (hb : bndFree p = true)
    (prev prev' : Option Char) (s : Str) : posMatch p prev s = posMatch p prev' s := by
  unfold posMatch
  rw [matchLen_prevIrrel p hb prev prev' s]

theorem noMatchFrom_prevIrrel {p : List Atom} (hb : bndFree p = true) :
    ∀ (s : Str) (prev prev' : Option Char),
      noMatchFrom p prev s = noMatchFrom p prev' s := by
  intro s
  cases s with
  | nil => intro _ _; rfl
  | cons c rest =>
    intro prev prev'
    simp only [noMatchFrom, posMatch_prevIrrel hb prev prev' (c :: rest)]

theorem noMatchFrom_tail {p : List Atom} {prev : Option Char} {c : Char} {r : Str}
    (h : noMatchFrom p prev (c :: r) = true) : noMatchFrom p (some c) r = true :=
  (noMatchFrom_cons.mp h).2

theorem noMatchFrom_drop {p : List Atom} (hb : bndFree p = true) :
    ∀ (k : Nat) (s : Str) (prev prev' : Option Char),
      noMatchFrom p prev s = true → noMatchFrom p prev' (s.drop k) = true := by
  intro k
  induction k with
  | zero =>
    intro s prev prev' h
    rw [List.drop_zero, noMatchFrom_prevIrrel hb s prev' prev]
    exact h
  | succ k' ih =>
    intro s prev prev' h
    cases s with
    | nil => simp [noMatchFrom]
    | cons c rest =>
      rw [List.drop_succ_cons]
      exact ih rest (some c) prev' (noMatchFrom_tail h)

theorem mem_take_append (x : Char) :
    ∀ (A B : Str) (n : Nat), A.length < n → x ∈ (A ++ x :: B).take n := by
  intro A
  induction A with
  | nil =>
    intro B n hn
    cases n with
    | zero => omega
    | succ m => simp
  | cons a A' ih =>
    intro B n hn
    cases n with
    | zero => simp at hn
    | succ m =>
      simp only [List.cons_append, List.take_succ_cons, List.mem_cons]
      right
      exact ih B m (by simpa using hn)

theorem head_inAlpha {p : List Atom} (hb : bndFree p = true) {prev : Option Char}
    {c : Char} {w : Str} {L : Nat} (h : matchLen p prev (c :: w) = some (L + 1)) :
    inAlpha p c = true := by
  have hsel := MSel_sound p hb prev (c :: w) (L + 1) h
  apply MSel_chars hsel
  simp [List.take_succ_cons]

/-- The output of a substitution pass is either the unchanged input, or it
starts with an unchanged prefix up to the first (positive) match followed by
the replacement token. -/
theorem subFrom_struct (p : List Atom) (rep : Str) :
    ∀ (s : Str) (prev : Option Char),
      subFrom p rep prev s = s ∨
      ∃ j L rest2, j + (L + 1) ≤ s.length ∧
        matchLen p (lastOf prev (s.take j)) (s.drop j) = some (L + 1) ∧
        subFrom p rep prev s = s.take j ++ rep ++ rest2 := by
  intro s
  induction s with
  | nil => intro prev; left; simp [subFrom]
  | cons c rest ih =>
    intro prev
    cases hm : matchLen p prev (c :: rest) with
    | none =>
      rcases ih (some c) with heq | ⟨j, L, rest2, hlen, hmatch, heq⟩
      · left; rw [subFrom, hm, heq]
      · right
        refine ⟨j + 1, L, rest2, ?_, ?_, ?_⟩
        · simp only [List.length_cons]; omega
        · rw [List.take_succ_cons, lastOf_cons, List.drop_succ_cons]
          exact hmatch
        · rw [subFrom, hm, heq]
          simp
    | some L0 =>
      cases L0 with
      | zero =>
        rcases ih (some c) with heq | ⟨j, L, rest2, hlen, hmatch, heq⟩
        · left; rw [subFrom, hm, heq]
        · right
          refine ⟨j + 1, L, rest2, ?_, ?_, ?_⟩
          · simp only [List.length_cons]; omega
          · rw [List.take_succ_cons, lastOf_cons, List.drop_succ_cons]
            exact hmatch
          · rw [subFrom, hm, heq]
            simp
      | succ L =>
        right
        refine ⟨0, L, subFrom p rep (lastOf prev ((c :: rest).take (L + 1))) ((c :: rest).drop (L + 1)), ?_, ?_, ?_⟩
        · have := matchLen_le_length p prev (c :: rest) (L + 1) hm
          omega
        · simpa [lastOf] using hm
        · rw [subFrom, hm]
          simp

/-- A positive match of a boundary-free `p` at the head of the partially
substituted tail pulls back to a positive match at the head of the original
tail — the core contradiction step for self-clearing and preservation. -/
theorem head_no_match {p q : List Atom} {rep : Str} (hb : bndFree p = true)
    (hm1 : 1 ≤ minLen p) (hrep : ∀ c ∈ rep, inAlpha p c = false) (hrepne : rep ≠ [])
    {c : Char} {rest : Str} {prev prevS prevN : Option Char}
    (hno : posMatch p prevS (c :: rest) = false) :
    posMatch p prevN (c :: subFrom q rep prev rest) = false := by
  rw [posMatch_eq_false]
  intro L hmatch
  rcases subFrom_struct q rep rest prev with heq | ⟨j, L', rest2, hlen, _, heq⟩
  · rw [heq, matchLen_prevIrrel p hb prevN prevS] at hmatch
    exact posMatch_eq_false.mp hno L hmatch
  · rw [heq] at hmatch
    have hjtake : (rest.take j).length = j := by
      rw [List.length_take]; omega
    rcases Nat.lt_or_ge (j + 1) (L + 1) with hgt | hle
    · -- the match would consume the first replacement character
      rcases rep with _ | ⟨r0, rep'⟩
      · exact hrepne rfl
      · have hsel := MSel_sound p hb prevN _ _ hmatch
        have hr0 : r0 ∈ (c :: (rest.take j ++ r0 :: rep' ++ rest2)).take (L + 1) := by
          have hre : c :: (rest.take j ++ r0 :: rep' ++ rest2) =
              (c :: rest.take j) ++ r0 :: (rep' ++ rest2) := by simp
          rw [hre]
          apply mem_take_append
          simp only [List.length_cons, hjtake]
          omega
        have := MSel_chars hsel r0 hr0
        rw [hrep r0 (by simp)] at this
        exact absurd this (by simp)
    · -- the match stays within the unchanged prefix
      have hAB : c :: (rest.take j ++ rep ++ rest2) =
          (c :: rest.take j) ++ (rep ++ rest2) := by simp
      have htk : (c :: (rest.take j ++ rep ++ rest2)).take (L + 1) =
          (c :: rest).take (L + 1) := by
        rw [hAB, List.take_append_of_le_length (by simp [hjtake]; omega)]
        have h1 : c :: rest.take j = (c :: rest).take (j + 1) := by
          rw [List.take_succ_cons]
        rw [h1, List.take_take]
        congr 1
        omega
      have hsel := MSel_sound p hb prevN _ _ hmatch
      rw [htk] at hsel
      have hsplit : (c :: rest).take (L + 1) ++ (c :: rest).drop (L + 1) = c :: rest :=
        List.take_append_drop ..
      have hsome := MSel_complete p hb _ ((c :: rest).drop (L + 1)) prevS hsel
      rw [hsplit] at hsome
      rcases Option.isSome_iff_exists.mp hsome with ⟨L2, hL2⟩
      cases L2 with
      | zero =>
        have := matchLen_pos hb hm1 hL2
        omega
      | succ L2' => exact posMatch_eq_false.mp hno L2' hL2

/-- Prepending characters outside `p`'s alphabet to a match-free string keeps
it match-free (boundary-free `p`). -/
theorem noMatchFrom_append_nonalpha {p : List Atom} (hb : bndFree p = true)
    {T : Str} {prevT : Option Char} :
    ∀ (u : Str), (∀ c ∈ u, inAlpha p c = false) →
      noMatchFrom p prevT T = true →
      ∀ prev, noMatchFrom p prev (u ++ T) = true := by
  intro u
  induction u with
  | nil =>
    intro _ hT prev
    rw [List.nil_append, noMatchFrom_prevIrrel hb T prev prevT]
    exact hT
  | cons a u' ih =>
    intro hu hT prev
    rw [List.cons_append]
    refine noMatchFrom_cons.mpr ⟨?_, ih (fun c hc => hu c (by simp [hc])) hT (some a)⟩
    rw [posMatch_eq_false]
    intro L h
    have := head_inAlpha hb h
    rw [hu a (by simp)] at this
    exact absurd this (by simp)

/-- After a pass of `p` over `s`, no positive match of `p` remains anywhere
in the output (boundary-free `p`, replacement outside `p`'s alphabet). -/
theorem subFrom_selfclear (p : List Atom) (rep : Str) (hb : bndFree p = true)
    (hm1 : 1 ≤ minLen p) (hrep : ∀ c ∈ rep, inAlpha p c = false) (hrepne : rep ≠ [])
    (s : Str) (prev prevN : Option Char) :
    noMatchFrom p prevN (subFrom p rep prev s) = true := by
  match s with
  | [] => simp [subFrom, noMatchFrom]
  | c :: rest =>
    cases hm : matchLen p prev (c :: rest) with
    | none =>
      rw [subFrom, hm]
      have hno : posMatch p prev (c :: rest) = false := by
        rw [posMatch_eq_false]; intro L h; rw [hm] at h; exact absurd h (by simp)
      refine noMatchFrom_cons.mpr ⟨head_no_match hb hm1 hrep hrepne hno, ?_⟩
      exact subFrom_selfclear p rep hb hm1 hrep hrepne rest (some c) (some c)
    | some L0 =>
      cases L0 with
      | zero =>
        rw [subFrom, hm]
        have hno : posMatch p prev (c :: rest) = false := by
          rw [posMatch_eq_false]; intro L h; rw [hm] at h; simp at h
        refine noMatchFrom_cons.mpr ⟨head_no_match hb hm1 hrep hrepne hno, ?_⟩
        exact subFrom_selfclear p rep hb hm1 hrep hrepne rest (some c) (some c)
      | succ L =>
        rw [subFrom, hm]
        have hT := subFrom_selfclear p rep hb hm1 hrep hrepne
          ((c :: rest).drop (L + 1)) (lastOf prev ((c :: rest).take (L + 1))) none
        exact noMatchFrom_append_nonalpha hb rep hrep hT prevN
termination_by s.length
decreasing_by
  all_goals simp_wf
  all_goals omega

/-- A pass of any pattern `q` preserves match-freedom of a boundary-free `p`
whose alphabet avoids the replacement token. -/
theorem subFrom_preserve (p q : List Atom) (rep : Str) (hb : bndFree p = true)
    (hm1 : 1 ≤ minLen p) (hrep : ∀ c ∈ rep, inAlpha p c = false) (hrepne : rep ≠ [])
    (s : Str) (prevN prev prevN' : Option Char)
    (hs : noMatchFrom p prevN s = true) :
    noMatchFrom p prevN' (subFrom q rep prev s) = true := by
  match s with
  | [] => simp [subFrom, noMatchFrom]
  | c :: rest =>
    cases hm : matchLen q prev (c :: rest) with
    | none =>
      rw [subFrom, hm]
      refine noMatchFrom_cons.mpr ⟨head_no_match hb hm1 hrep hrepne (noMatchFrom_cons.mp hs).1, ?_⟩
      exact subFrom_preserve p q rep hb hm1 hrep hrepne rest (some c) (some c) (some c)
        (noMatchFrom_tail hs)
    | some L0 =>
      cases L0 with
      | zero =>
        rw [subFrom, hm]
        refine noMatchFrom_cons.mpr ⟨head_no_match hb hm1 hrep hrepne (noMatchFrom_cons.mp hs).1, ?_⟩
        exact subFrom_preserve p q rep hb hm1 hrep hrepne rest (some c) (some c) (some c)
          (noMatchFrom_tail hs)
      | succ L =>
        rw [subFrom, hm]
        have hdrop : noMatchFrom p none ((c :: rest).drop (L + 1)) = true :=
          noMatchFrom_drop hb (L + 1) (c :: rest) prevN none hs
        have hT := subFrom_preserve p q rep hb hm1 hrep hrepne
          ((c :: rest).drop (L + 1)) none (lastOf prev ((c :: rest).take (L + 1))) none hdrop
        exact noMatchFrom_append_nonalpha hb rep hrep hT prevN'
termination_by s.length
decreasing_by
  all_goals simp_wf
  all_goals omega

/-! ### The catch-all pattern: characterization and self-clearing -/

theorem isWordC_of_digit {c : Char} (h : isDigitC c = true) : isWordC c = true := by
  simp only [isDigitC] at h
  simp [isWordC, Char.isAlphanum, h]

theorem nondigit_of_nonword {c : Char} (h : isWordC c = false) : isDigitC c = false := by
  cases hd : isDigitC c with
  | false => rfl
  | true => rw [isWordC_of_digit hd] at h; exact absurd h (by simp)

theorem atBnd_of_word_left {d : Char} (hd : isWordC d = true) (Y : Option Char) :
    atBnd (some d) Y = !isWordO Y := by
  have h1 : isWordO (some d) = true := by simp [isWordO, hd]
  rw [atBnd, h1]
  cases hY : isWordO Y <;> rfl

theorem atBnd_of_word_right {X Y : Option Char} (hY : isWordO Y = true) :
    atBnd X Y = !isWordO X := by
  rw [atBnd, hY]
  cases hX : isWordO X <;> rfl

/-- Closed form of the catch-all matcher `\b\d{8,}\b`: it matches exactly the
maximal digit run when that run has length at least 8 and sits between
non-word contexts. -/
theorem matchLen_patB (prev : Option Char) (s : Str) :
    matchLen patB prev s =
      if 8 ≤ countCls isDigitC s ∧ isWordO prev = false ∧
          isWordO ((s.drop (countCls isDigitC s)).head?) = false
        then some (countCls isDigitC s) else none := by
  have hun : matchLen patB prev s =
      if atBnd prev s.head?
      then firstSome (fun k =>
        ((if atBnd (lastOf prev (s.take k)) ((s.drop k).head?)
            then some 0 else none).map (k + ·)))
        (downFrom (countCls isDigitC s) 8)
      else none := rfl
  rcases Nat.lt_or_ge (countCls isDigitC s) 8 with hn | hn
  · rw [hun, downFrom_nil hn]
    have hfs : firstSome (fun k =>
        ((if atBnd (lastOf prev (s.take k)) ((s.drop k).head?)
            then some 0 else none).map (k + ·))) ([] : List Nat) = none := rfl
    rw [hfs, ite_self, if_neg]
    rintro ⟨h8, -⟩
    omega
  · obtain ⟨c0, hc0, hc0d⟩ := head_digit_of_lt_countCls isDigitC s 0 (by omega)
    rw [List.drop_zero] at hc0
    have hw0 : isWordO s.head? = true := by
      rw [hc0]; simp [isWordO, isWordC_of_digit hc0d]
    have hbnd : atBnd prev s.head? = !isWordO prev := atBnd_of_word_right hw0
    obtain ⟨d, hd, hdd⟩ := getLast_sat_of_le_countCls isDigitC s (countCls isDigitC s)
      (by omega) (le_refl _)
    have hlast : lastOf prev (s.take (countCls isDigitC s)) = some d := by
      rw [lastOf, hd]
    have hFn : ((if atBnd (lastOf prev (s.take (countCls isDigitC s)))
          ((s.drop (countCls isDigitC s)).head?) then some 0 else none).map
          ((countCls isDigitC s) + ·)) =
        if isWordO ((s.drop (countCls isDigitC s)).head?) = false
        then some (countCls isDigitC s) else none := by
      rw [hlast, atBnd_of_word_left (isWordC_of_digit hdd)]
      cases hX : isWordO ((s.drop (countCls isDigitC s)).head?) <;> simp
    have hrest : ∀ k ∈ downFrom (countCls isDigitC s - 1) 8,
        ((if atBnd (lastOf prev (s.take k)) ((s.drop k).head?)
            then some 0 else none).map (k + ·)) = none := by
      intro k hk
      rcases mem_downFrom.mp hk with ⟨h8k, hkn⟩
      obtain ⟨d', hd', hdd'⟩ := getLast_sat_of_le_countCls isDigitC s k (by omega) (by omega)
      obtain ⟨e, he, hed⟩ := head_digit_of_lt_countCls isDigitC s k (by omega)
      have hl : lastOf prev (s.take k) = some d' := by rw [lastOf, hd']
      rw [hl, atBnd_of_word_left (isWordC_of_digit hdd'), he]
      have hwe : isWordO (some e) = true := by simp [isWordO, isWordC_of_digit hed]
      rw [hwe]
      rfl
    have hfs : firstSome (fun k =>
        ((if atBnd (lastOf prev (s.take k)) ((s.drop k).head?)
            then some 0 else none).map (k + ·)))
        ((countCls isDigitC s) :: downFrom (countCls isDigitC s - 1) 8) =
        match ((if atBnd (lastOf prev (s.take (countCls isDigitC s)))
            ((s.drop (countCls isDigitC s)).head?) then some 0 else none).map
            ((countCls isDigitC s) + ·)) with
        | some r => some r
        | none => firstSome (fun k =>
            ((if atBnd (lastOf prev (s.take k)) ((s.drop k).head?)
                then some 0 else none).map (k + ·)))
            (downFrom (countCls isDigitC s - 1) 8) := rfl
  
    rw [hun, downFrom_cons hn (by omega), hfs, hFn, hbnd]
    cases hprev : isWordO prev with
    | true => simp
    | false =>
      cases hX : isWordO ((s.drop (countCls isDigitC s)).head?) with
      | false => simp [hn]
      | true =>
        rw [firstSome_none hrest]
        simp

theorem countCls_append_le (f : Char → Bool) :
    ∀ (A : Str) (b : Char) (B : Str), f b = false → countCls f (A ++ b :: B) ≤ A.length := by
  intro A
  induction A with
  | nil => intro b B hb; simp [countCls, hb]
  | cons a A' ih =>
    intro b B hb
    simp only [List.cons_append, countCls, List.length_cons, List.append_eq]
    split
    · have := ih b B hb; omega
    · omega

theorem countCls_eq_of_take_eq (f : Char → Bool) :
    ∀ (m : Nat) (s t : Str), s.take m = t.take m → countCls f s < m →
      countCls f t = countCls f s := by
  intro m
  induction m with
  | zero => intro s t _ h; omega
  | succ m' ih =>
    intro s t htake hlt
    cases s with
    | nil =>
      cases t with
      | nil => rfl
      | cons b t' => simp at htake
    | cons a s' =>
      cases t with
      | nil => simp at htake
      | cons b t' =>
        simp only [List.take_succ_cons, List.cons.injEq] at htake
        obtain ⟨rfl, htk⟩ := htake
        simp only [countCls] at hlt ⊢
        cases hfa : f a with
        | false => simp [hfa] at hlt ⊢
        | true =>
          simp only [hfa, if_true] at hlt ⊢
          rw [ih s' t' htk (by omega)]

theorem head_drop_eq_of_take_eq :
    ∀ (n m : Nat) (s t : Str), s.take m = t.take m → n < m →
      (s.drop n).head? = (t.drop n).head? := by
  intro n
  induction n with
  | zero =>
    intro m s t htake hlt
    cases m with
    | zero => omega
    | succ m' =>
      cases s with
      | nil =>
        cases t with
        | nil => rfl
        | cons b t' => simp at htake
      | cons a s' =>
        cases t with
        | nil => simp at htake
        | cons b t' =>
          simp only [List.take_succ_cons, List.cons.injEq] at htake
          simp [htake.1]
  | succ n' ih =>
    intro m s t htake hlt
    cases m with
    | zero => omega
    | succ m' =>
      cases s with
      | nil =>
        cases t with
        | nil => rfl
        | cons b t' => simp at htake
      | cons a s' =>
        cases t with
        | nil => simp at htake
        | cons b t' =>
          simp only [List.take_succ_cons, List.cons.injEq] at htake
          simp only [List.drop_succ_cons]
          exact ih m' s' t' htake.2 (by omega)

/-- First character (if any) is not a digit. -/
def headNonDigit : Str → Bool
  | [] => true
  | c :: _ => !isDigitC c

theorem patB_posMatch_false_headND {T : Str} (h : headNonDigit T = true) (Q : Option Char) :
    posMatch patB Q T = false := by
  rw [posMatch_eq_false]
  intro L hL
  rw [matchLen_patB] at hL
  split at hL
  · rename_i hcond
    obtain ⟨h8, -, -⟩ := hcond
    cases T with
    | nil => simp [countCls] at h8
    | cons c r =>
      simp only [headNonDigit, Bool.not_eq_true'] at h
      rw [countCls_cons_false r h] at h8
      omega
  · exact absurd hL (by simp)

theorem patB_glue {T : Str} {P : Option Char} (hT : noMatchFrom patB P T = true)
    (hhead : headNonDigit T = true) :
    ∀ (u : Str), (∀ c ∈ u, isDigitC c = false) → ∀ (Q : Option Char),
      noMatchFrom patB Q (u ++ T) = true := by
  intro u
  induction u with
  | nil =>
    intro _ Q
    rw [List.nil_append]
    cases T with
    | nil => rfl
    | cons c r =>
      exact noMatchFrom_cons.mpr ⟨patB_posMatch_false_headND hhead Q, noMatchFrom_tail hT⟩
  | cons a u' ih =>
    intro hu Q
    rw [List.cons_append]
    refine noMatchFrom_cons.mpr ⟨?_, ih (fun c hc => hu c (by simp [hc])) (some a)⟩
    apply patB_posMatch_false_headND
    simp [headNonDigit, hu a (by simp)]

theorem headND_subFrom (p : List Atom) (rep : Str) (hrep0 : headNonDigit rep = true)
    (hrepne : rep ≠ []) :
    ∀ (w : Str) (pv : Option Char), headNonDigit w = true →
      headNonDigit (subFrom p rep pv w) = true := by
  intro w pv hw
  cases w with
  | nil => simp [subFrom, headNonDigit]
  | cons c r =>
    cases hm : matchLen p pv (c :: r) with
    | none =>
      rw [subFrom, hm]
      simpa [headNonDigit] using hw
    | some L0 =>
      cases L0 with
      | zero =>
        rw [subFrom, hm]
        simpa [headNonDigit] using hw
      | succ L =>
        rw [subFrom, hm]
        cases rep with
        | nil => exact absurd rfl hrepne
        | cons r0 rep' =>
          simpa [headNonDigit] using hrep0

/-- Pullback of a catch-all match at the head of a partially substituted tail:
the key no-new-match argument for the boundary-sensitive catch-all. -/
theorem patB_head_no_match (rep : Str) (hrep : ∀ c ∈ rep, isDigitC c = false)
    (hrepne : rep ≠ []) {c : Char} {rest : Str} {prev pv : Option Char}
    (hno : matchLen patB prev (c :: rest) = none) :
    posMatch patB prev (c :: subFrom patB rep pv rest) = false := by
  rw [posMatch_eq_false]
  intro L hmatch
  rcases subFrom_struct patB rep rest pv with heq | ⟨j, L', rest2, hlen, hmj, heq⟩
  · rw [heq, hno] at hmatch
    exact absurd hmatch (by simp)
  · rw [heq] at hmatch
    rcases rep with _ | ⟨r0, rep'⟩
    · exact hrepne rfl
    have hr0 : isDigitC r0 = false := hrep r0 (by simp)
    have hjlen : j ≤ rest.length := by omega
    have hjtake : (rest.take j).length = j := by rw [List.length_take]; omega
    rw [matchLen_patB] at hmatch
    split at hmatch
    case isTrue hcond =>
      obtain ⟨h8, hpw, hnext⟩ := hcond
      have hble : countCls isDigitC (c :: (rest.take j ++ (r0 :: rep') ++ rest2)) ≤ j + 1 := by
        have hdec : c :: (rest.take j ++ (r0 :: rep') ++ rest2) =
            (c :: rest.take j) ++ (r0 :: (rep' ++ rest2)) := by simp
        rw [hdec]
        have := countCls_append_le isDigitC (c :: rest.take j) r0 (rep' ++ rest2) hr0
        simpa [hjtake] using this
      rcases Nat.lt_or_ge (countCls isDigitC (c :: (rest.take j ++ (r0 :: rep') ++ rest2)))
          (j + 1) with hlt | hge
      · -- run and its end lie inside the unchanged prefix: contradict `hno`
        have htke : (c :: (rest.take j ++ (r0 :: rep') ++ rest2)).take (j + 1) =
            (c :: rest).take (j + 1) := by
          rw [List.take_succ_cons, List.take_succ_cons]
          congr 1
          rw [List.append_assoc, List.take_append_of_le_length (by omega), List.take_take]
          congr 1
          omega
        have hcnt : countCls isDigitC (c :: rest) =
            countCls isDigitC (c :: (rest.take j ++ (r0 :: rep') ++ rest2)) :=
          countCls_eq_of_take_eq isDigitC (j + 1) _ _ htke hlt
        have hhd := head_drop_eq_of_take_eq
          (countCls isDigitC (c :: (rest.take j ++ (r0 :: rep') ++ rest2))) (j + 1) _ _ htke hlt
        have hpos : matchLen patB prev (c :: rest) = some (countCls isDigitC (c :: rest)) := by
          rw [matchLen_patB, if_pos]
          refine ⟨by omega, hpw, ?_⟩
          rw [hcnt, ← hhd]
          exact hnext
        rw [hno] at hpos
        exact absurd hpos (by simp)
      · -- the run reaches the replacement: the char before the replaced match
        -- would have to be both a digit and a non-word character
        have hNB : countCls isDigitC (c :: (rest.take j ++ (r0 :: rep') ++ rest2)) = j + 1 :=
          le_antisymm hble hge
        have hj1 : 1 ≤ j := by omega
        have hne : rest.take j ≠ [] := by
          intro hcontra
          rw [hcontra] at hjtake
          simp at hjtake
          omega
        have htkj : (c :: (rest.take j ++ (r0 :: rep') ++ rest2)).take (j + 1) =
            c :: rest.take j := by
          rw [List.take_succ_cons]
          congr 1
          rw [List.append_assoc, List.take_append_of_le_length (by omega), List.take_take]
          have : min j j = j := min_self j
          rw [this]
        rw [matchLen_patB] at hmj
        split at hmj
        case isFalse => exact absurd hmj (by simp)
        case isTrue hcondj =>
          obtain ⟨-, hKEY, -⟩ := hcondj
          have hlastde : lastOf pv (rest.take j) = some ((rest.take j).getLast hne) := by
            rw [lastOf, List.getLast?_eq_getLast_of_ne_nil hne]
          rw [hlastde] at hKEY
          have hmem : (rest.take j).getLast hne ∈ rest.take j := List.getLast_mem hne
          have hdig : isDigitC ((rest.take j).getLast hne) = true := by
            apply sat_of_le_countCls isDigitC _ (j + 1) (le_of_eq hNB.symm)
            rw [htkj]
            exact List.mem_cons_of_mem c hmem
          have hword : isWordO (some ((rest.take j).getLast hne)) = true := by
            simp [isWordO, isWordC_of_digit hdig]
          rw [hword] at hKEY
          exact absurd hKEY (by simp)
    case isFalse => exact absurd hmatch (by simp)

/-- After the catch-all pass, no catch-all match remains anywhere. -/
theorem subFrom_patB_selfclear (rep : Str) (hrep : ∀ c ∈ rep, isDigitC c = false)
    (hrepne : rep ≠ []) (s : Str) (prev : Option Char) :
    noMatchFrom patB prev (subFrom patB rep prev s) = true := by
  match s with
  | [] => simp [subFrom, noMatchFrom]
  | c :: rest =>
    cases hm : matchLen patB prev (c :: rest) with
    | none =>
      rw [subFrom, hm]
      refine noMatchFrom_cons.mpr ⟨patB_head_no_match rep hrep hrepne hm, ?_⟩
      have := subFrom_patB_selfclear rep hrep hrepne rest (some c)
      exact this
    | some L0 =>
      have hm' := hm
      rw [matchLen_patB] at hm'
      split at hm'
      case isFalse => exact absurd hm' (by simp)
      case isTrue hcond =>
        obtain ⟨h8, hpw, hnext⟩ := hcond
        have hL0 : countCls isDigitC (c :: rest) = L0 := by injection hm'
        obtain ⟨L, rfl⟩ : ∃ L, L0 = L + 1 := ⟨L0 - 1, by omega⟩
        have hL1 : L + 1 = countCls isDigitC (c :: rest) := hL0.symm
        rw [subFrom, hm]
        have hwsub : headNonDigit ((c :: rest).drop (L + 1)) = true := by
          rw [hL1]
          cases hW : (c :: rest).drop (countCls isDigitC (c :: rest)) with
          | nil => rfl
          | cons e w' =>
            have hW2 : ((c :: rest).drop (countCls isDigitC (c :: rest))).head? = some e := by
              rw [hW]; rfl
            rw [hW2] at hnext
            have hnd : isDigitC e = false :=
              nondigit_of_nonword (by simpa [isWordO] using hnext)
            simp [headNonDigit, hnd]
        have hrep0 : headNonDigit rep = true := by
          cases rep with
          | nil => rfl
          | cons r0 rep' => simp [headNonDigit, hrep r0 (by simp)]
        have hrecur := subFrom_patB_selfclear rep hrep hrepne ((c :: rest).drop (L + 1))
          (lastOf prev ((c :: rest).take (L + 1)))
        have hT := headND_subFrom patB rep hrep0 hrepne ((c :: rest).drop (L + 1))
          (lastOf prev ((c :: rest).take (L + 1))) hwsub
        exact patB_glue hrecur hT rep hrep prev
termination_by s.length
decreasing_by
  all_goals simp_wf
  all_goals omega

/-! ### Idempotence of the full masking chain -/

theorem hidden_ne_nil : "[hidden]".data ≠ [] := by decide

theorem hidden_nondigit : ∀ c ∈ "[hidden]".data, isDigitC c = false := by decide

theorem phonePatterns_cond : ∀ p ∈ phonePatterns,
    bndFree p = true ∧ 1 ≤ minLen p ∧ ∀ c ∈ "[hidden]".data, inAlpha p c = false := by
  decide

theorem noMatchFrom_foldl {p : List Atom} (hb : bndFree p = true) (hm1 : 1 ≤ minLen p)
    (hrep : ∀ c ∈ "[hidden]".data, inAlpha p c = false) :
    ∀ (qs : List (List Atom)) (t : Str), noMatchFrom p none t = true →
      noMatchFrom p none (qs.foldl (fun u q => reSub q u) t) = true := by
  intro qs
  induction qs with
  | nil => intro t h; exact h
  | cons q qs' ih =>
    intro t h
    simp only [List.foldl_cons]
    have hx := subFrom_preserve p q "[hidden]".data hb hm1 hrep hidden_ne_nil t none none none h
    rw [← reSub_def] at hx
    exact ih (reSub q t) hx

theorem noMatchFrom_fold_self :
    ∀ (qs : List (List Atom)),
      (∀ q ∈ qs, bndFree q = true ∧ 1 ≤ minLen q ∧ ∀ c ∈ "[hidden]".data, inAlpha q c = false) →
      ∀ (t : Str) (p : List Atom), p ∈ qs →
        noMatchFrom p none (qs.foldl (fun u q => reSub q u) t) = true := by
  intro qs
  induction qs with
  | nil => intro _ t p hp; simp at hp
  | cons q qs' ih =>
    intro hcond t p hp
    simp only [List.foldl_cons]
    rcases List.mem_cons.mp hp with rfl | hp'
    · obtain ⟨hb, hm1, hrep⟩ := hcond p (by simp)
      apply noMatchFrom_foldl hb hm1 hrep qs'
      rw [reSub_def]
      exact subFrom_selfclear p "[hidden]".data hb hm1 hrep hidden_ne_nil t none none
    · exact ih (fun q' hq' => hcond q' (by simp [hq'])) (reSub q t) p hp'

theorem foldl_fix_of_noMatch :
    ∀ (qs : List (List Atom)) (t : Str),
      (∀ q ∈ qs, noMatchFrom q none t = true) →
      qs.foldl (fun u q => reSub q u) t = t := by
  intro qs
  induction qs with
  | nil => intro t _; rfl
  | cons q qs' ih =>
    intro t h
    simp only [List.foldl_cons]
    rw [reSub_def, subFrom_of_noMatch q "[hidden]".data t none (h q (by simp))]
    exact ih t (fun q' hq' => h q' (by simp [hq']))

theorem maskL_idem (s : Str) : maskL (maskL s) = maskL s := by
  have h9 : ∀ p ∈ phonePatterns, noMatchFrom p none (maskL s) = true := by
    intro p hp
    obtain ⟨hb, hm1, hrep⟩ := phonePatterns_cond p hp
    have ht9 := noMatchFrom_fold_self phonePatterns phonePatterns_cond s p hp
    rw [maskL, reSub_def]
    exact subFrom_preserve p patB "[hidden]".data hb hm1 hrep hidden_ne_nil
      (phonePatterns.foldl (fun t p => reSub p t) s) none none none ht9
  have hB : noMatchFrom patB none (maskL s) = true := by
    rw [maskL, reSub_def]
    exact subFrom_patB_selfclear "[hidden]".data hidden_nondigit hidden_ne_nil
      (phonePatterns.foldl (fun t p => reSub p t) s) none
  rw [maskL, foldl_fix_of_noMatch phonePatterns (maskL s) h9, reSub_def,
    subFrom_of_noMatch patB "[hidden]".data (maskL s) none hB]

/-! ### The manager state (`RandomConnectManager`)

User identifiers, nicknames, messages and responses are `Str`; `datetime` is
modelled as a `Nat` timestamp in seconds supplied by the caller; `uuid4` is
modelled by a fresh-counter field `next_session` (only freshness and equality
of session identifiers matter to the code). -/

structure UserState where
  user_id : Str
  nickname : Str
  phone_masking_enabled : Bool
  partner_id : Option Str
  partner_session_id : Option Nat
  last_activity : Nat
deriving Repr, DecidableEq

structure Mgr where
  available_users : List Str
  available_set : List Str
  active_pairs : List (Str × Str)
  user_states : List (Str × UserState)
  pending_notifications : List (Str × List Str)
  pending_messages : List (Str × List Str)
  strict_mode : Bool
  next_session : Nat
deriving Repr, DecidableEq

/-- The freshly initialized manager (`RandomConnectManager.__init__`). -/
def mgr0 : Mgr :=
  { available_users := [], available_set := [], active_pairs := [], user_states := [],
    pending_notifications := [], pending_messages := [], strict_mode := true,
    next_session := 0 }

/-! Association-list maps mirroring Python `dict`. -/

def mget {α : Type} : List (Str × α) → Str → Option α
  | [], _ => none
  | (k, v) :: r, x => if k = x then some v else mget r x

def mset {α : Type} : List (Str × α) → Str → α → List (Str × α)
  | [], x, v => [(x, v)]
  | (k, w) :: r, x, v => if k = x then (x, v) :: r else (k, w) :: mset r x v

/-- `dict.pop(key, default)`'s effect on the stored map. -/
def mpop {α : Type} (m : List (Str × α)) (x : Str) : List (Str × α) :=
  m.filter (fun kv => kv.1 != x)

/-! Text helpers mirroring `str.strip`, `str.lower`, slicing and joining. -/

def isPyWS (c : Char) : Bool :=
  c = ' ' || c = '\t' || c = '\n' || c = '\r' || c = '\x0b' || c = '\x0c'

def pstrip (s : Str) : Str :=
  ((s.dropWhile isPyWS).reverse.dropWhile isPyWS).reverse

def plower (s : Str) : Str := s.map Char.toLower

/-- Python `l[-n:]`. -/
def lastN {α : Type} (n : Nat) (l : List α) : List α := l.drop (l.length - n)

def joinNL : List Str → Str
  | [] => []
  | [x] => x
  | x :: xs => x ++ '\n' :: joinNL xs

/-- `f"User_{user_id[:8]}"`. -/
def defaultNick (u : Str) : Str := "User_".data ++ u.take 8

/-- `get_or_create_user_state`: lazy upsert, then unconditionally refresh the
last-activity timestamp. -/
def get_or_create_user_state (u : Str) (nick : Option Str) (now : Nat) (m : Mgr) :
    UserState × Mgr :=
  let st0 := match mget m.user_states u with
    | some st => st
    | none =>
      let nk := match nick with
        | some n => if n = [] then defaultNick u else n
        | none => defaultNick u
      { user_id := u, nickname := nk, phone_masking_enabled := true,
        partner_id := none, partner_session_id := none, last_activity := now }
  let st := { st0 with last_activity := now }
  (st, { m with user_states := mset m.user_states u st })

/-- `_queue_add`. -/
def queueAdd (u : Str) (m : Mgr) : Mgr :=
  if u ∈ m.available_set then m
  else { m with available_users := m.available_users ++ [u],
                available_set := u :: m.available_set }

/-- The deque update of `_queue_remove`: fast path when `u` sits at the head,
full rebuild otherwise. -/
def queueDrop (u : Str) : List Str → List Str
  | [] => []
  | c :: rest => if c = u then rest else (c :: rest).filter (fun x => x != u)

/-- `_queue_remove`. -/
def queueRemove (u : Str) (m : Mgr) : Mgr :=
  if u ∈ m.available_set then
    { m with available_set := m.available_set.filter (fun x => x != u),
             available_users := queueDrop u m.available_users }
  else m

/-- The `while` loop of `find_partner`: pop queue entries until one is still
a member of `available_set` (defence against stale entries). -/
def popLive (avset : List Str) : List Str → Option (Str × List Str)
  | [] => none
  | c :: rest => if c ∈ avset then some (c, rest) else popLive avset rest

def connectNote (nick : Str) : Str :=
  "🎉 Connected! You\x27re now chatting with ".data ++ nick ++
    ". Use #R to send and #M to check messages.".data

def disconnectNote : Str :=
  "Your partner left the chat. Use #meet to find a new one.".data

/-- `find_partner`: returns the partner (if matched) and the updated state. -/
def find_partner (u : Str) (m : Mgr) : Option Str × Mgr :=
  let m := queueRemove u m
  if m.available_users = [] then (none, queueAdd u m)
  else
    match popLive m.available_set m.available_users with
    | none => (none, queueAdd u { m with available_users := [] })
    | some (partner, rest) =>
      let m := { m with available_users := rest,
                        available_set := m.available_set.filter (fun x => x != partner) }
      let sid := m.next_session
      let m := { m with
        active_pairs := mset (mset m.active_pairs u partner) partner u,
        next_session := sid + 1 }
      let m := match mget m.user_states u with
        | some st =>
          let st2 := { st with partner_id := some partner, partner_session_id := some sid }
          { m with user_states := mset m.user_states u st2 }
        | none => m
      let m := match mget m.user_states partner with
        | some st =>
          let st2 := { st with partner_id := some u, partner_session_id := some sid }
          { m with user_states := mset m.user_states partner st2 }
        | none => m
      let meNick := match mget m.user_states u with
        | some st => st.nickname
        | none => "Partner".data
      let notes2 := (mget m.pending_notifications partner).getD [] ++ [connectNote meNick]
      let m := { m with pending_notifications := mset m.pending_notifications partner notes2 }
      (some partner, m)

/-- `end_chat`. -/
def end_chat (u : Str) (m : Mgr) : Option Str × Mgr :=
  match mget m.active_pairs u with
  | some p =>
    let m := { m with active_pairs := mpop (mpop m.active_pairs u) p }
    let m := match mget m.user_states u with
      | some st =>
        let st2 := { st with partner_id := none, partner_session_id := none }
        { m with user_states := mset m.user_states u st2 }
      | none => m
    let m := match mget m.user_states p with
      | some st =>
        let st2 := { st with partner_id := none, partner_session_id := none }
        { m with user_states := mset m.user_states p st2 }
      | none => m
    let notes2 := (mget m.pending_notifications p).getD [] ++ [disconnectNote]
    let m := { m with pending_notifications := mset m.pending_notifications p notes2 }
    (some p, m)
  | none => (none, queueRemove u m)

/-- `get_partner`. -/
def get_partner (u : Str) (m : Mgr) : Option Str := mget m.active_pairs u

/-- `toggle_phone_masking`. -/
def toggle_phone_masking (u : Str) (now : Nat) (m : Mgr) : Bool × Mgr :=
  let (st, m) := get_or_create_user_state u none now m
  let st := { st with phone_masking_enabled := !st.phone_masking_enabled }
  (st.phone_masking_enabled, { m with user_states := mset m.user_states u st })

/-- `get_partner_nickname`. -/
def get_partner_nickname (u : Str) (m : Mgr) : Option Str :=
  match get_partner u m with
  | some p => (mget m.user_states p).map UserState.nickname
  | none => none

def noPartnerMsg : Str := "No partner found. Use #meet to connect.".data

def usageMsg : Str := "Usage: #R your message here".data

def strictTip : Str :=
  "Use #R to send a message to your partner, and #M to check messages.".data

def sentMsg (nick msg : Str) : Str :=
  "📤 Message sent to your partner from ".data ++ nick ++ ": ".data ++ msg

/-- `_handle_message_routing`: deliver a pending notification if any,
otherwise validate the pair and session and queue the (re-masked) message
for the partner, capping the queue at 100. -/
def handle_message_routing (u : Str) (msg : Str) (m : Mgr) : Str × Mgr :=
  let notes := (mget m.pending_notifications u).getD []
  let m := { m with pending_notifications := mpop m.pending_notifications u }
  match notes with
  | n :: ns => ((n :: ns).getLastD n, m)
  | [] =>
    match mget m.active_pairs u with
    | none => (noPartnerMsg, m)
    | some p =>
      match mget m.user_states u, mget m.user_states p with
      | some me, some pa =>
        if me.partner_session_id = pa.partner_session_id then
          let masked := if me.phone_masking_enabled then maskL msg else msg
          let q0 := (mget m.pending_messages p).getD [] ++ [masked]
          let q := if 100 < q0.length then q0.drop 1 else q0
          (sentMsg me.nickname msg, { m with pending_messages := mset m.pending_messages p q })
        else (noPartnerMsg, m)
      | some _, none => (noPartnerMsg, m)
      | none, _ => (noPartnerMsg, m)

/-- `_handle_inbox_command` (`#m`). -/
def handle_inbox (u : Str) (m : Mgr) : Str × Mgr :=
  let notes := (mget m.pending_notifications u).getD []
  let msgs := (mget m.pending_messages u).getD []
  let m := { m with pending_notifications := mpop m.pending_notifications u,
                    pending_messages := mpop m.pending_messages u }
  if notes = [] ∧ msgs = [] then ("📭 Inbox empty.".data, m)
  else
    let parts := (lastN 3 notes).map (fun n => "ℹ️ ".data ++ n) ++
                 (lastN 5 msgs).map (fun x => "💬 Partner: ".data ++ x)
    (joinNL parts, m)

/-- `_handle_meet_command`. -/
def handle_meet (u : Str) (m : Mgr) : Str × Mgr :=
  match get_partner u m with
  | some _ =>
    ("You\x27re already in a chat! Use #bye to end it first, or #again to find a new partner.".data, m)
  | none =>
    match find_partner u m with
    | (some _, m2) =>
      let nick := match get_partner_nickname u m2 with
        | some nk => nk
        | none => "None".data
      ("🎉 Connected! You\x27re now chatting with ".data ++ nick ++ ". Say hello!".data, m2)
    | (none, m2) =>
      ("🔍 Looking for someone to chat with... Please wait while we find you a partner!".data, m2)

/-- `_handle_bye_command`. -/
def handle_bye (u : Str) (m : Mgr) : Str × Mgr :=
  match end_chat u m with
  | (some _, m2) => ("👋 Chat ended. Use #meet to connect with someone new!".data, m2)
  | (none, m2) => ("You\x27re not currently in a chat.".data, m2)

/-- `_handle_again_command`. -/
def handle_again (u : Str) (m : Mgr) : Str × Mgr :=
  let m1 := (end_chat u m).2
  match find_partner u m1 with
  | (some _, m2) =>
    let nick := match get_partner_nickname u m2 with
      | some nk => nk
      | none => "None".data
    ("🔄 New connection! You\x27re now chatting with ".data ++ nick ++ ". Say hello!".data, m2)
  | (none, m2) => ("🔍 Looking for a new chat partner... Please wait!".data, m2)

/-- `_handle_hide_command`. -/
def handle_hide (u : Str) (now : Nat) (m : Mgr) : Str × Mgr :=
  let r := toggle_phone_masking u now m
  (if r.1 then "🔒 Phone number masking is now ON.".data
   else "🔒 Phone number masking is now OFF.".data, r.2)

/-- `_handle_who_command`. -/
def handle_who (u : Str) (m : Mgr) : Str × Mgr :=
  match get_partner_nickname u m with
  | some nk => ("👤 You\x27re chatting with: ".data ++ nk, m)
  | none => ("You\x27re not currently in a chat. Use #meet to connect!".data, m)

/-- The command router inlined in `process_message` (lines 248-294): dispatch
on the command prefix of the lowercased stripped masked text. -/
def dispatch (u : Str) (msg : Str) (now : Nat) (m : Mgr) : Str × Mgr :=
  let low := plower (pstrip msg)
  if "#meet".data.isPrefixOf low then handle_meet u m
  else if "#bye".data.isPrefixOf low then handle_bye u m
  else if "#again".data.isPrefixOf low then handle_again u m
  else if "#hide".data.isPrefixOf low then handle_hide u now m
  else if "#who".data.isPrefixOf low then handle_who u m
  else if "#m".data.isPrefixOf low then handle_inbox u m
  else if "#r".data.isPrefixOf low then
    let stripped := pstrip msg
    let content := if 2 < stripped.length then pstrip (stripped.drop 2) else []
    if content = [] then (usageMsg, m)
    else handle_message_routing u content m
  else if !m.strict_mode then
    let r1 := handle_message_routing u msg m
    let outb := r1.1
    let m := r1.2
    let queued := (mget m.pending_messages u).getD []
    let m := { m with pending_messages := mpop m.pending_messages u }
    match queued with
    | [] => (outb, m)
    | _ =>
      let delivered := joinNL ((lastN 10 queued).map (fun x => "💬 Partner: ".data ++ x))
      (outb ++ "\n\n".data ++ delivered, m)
  else (strictTip, m)

/-- `process_message`: refresh (or create) the caller\x27s profile, apply the
caller\x27s masking preference to the raw text, then dispatch on the command
prefix of the lowercased stripped text. -/
def process_message (u : Str) (msgRaw : Str) (nick : Option Str) (now : Nat) (m : Mgr) :
    Str × Mgr :=
  let r0 := get_or_create_user_state u nick now m
  let st := r0.1
  let m := r0.2
  let msg := if st.phone_masking_enabled then maskL msgRaw else msgRaw
  dispatch u msg now m

/-- `cleanup_inactive_users`: collect the users inactive beyond the threshold,
then end each one's chat and delete its profile. -/
def cleanup_inactive_users (timeout_minutes : Nat) (now : Nat) (m : Mgr) : Mgr :=
  let inactive := (m.user_states.filter
    (fun kv => decide (timeout_minutes * 60 < now - kv.2.last_activity))).map Prod.fst
  inactive.foldl (fun m u =>
    let m1 := (end_chat u m).2
    { m1 with user_states := mpop m1.user_states u }) m

/-- States reachable through the operations the transport layer exposes:
`process_message` (the message tool) and `cleanup_inactive_users` (the
maintenance tool and the periodic reaper), starting from the fresh manager. -/
inductive Reachable : Mgr → Prop
  | start : Reachable mgr0
  | step (u msgRaw : Str) (nick : Option Str) (now : Nat) {m : Mgr} :
      Reachable m → Reachable (process_message u msgRaw nick now m).2
  | sweep (t now : Nat) {m : Mgr} :
      Reachable m → Reachable (cleanup_inactive_users t now m)

/-! ### Pointwise lemmas for the association-list maps -/

theorem mget_mset {α : Type} :
    ∀ (m : List (Str × α)) (x : Str) (v : α) (y : Str),
      mget (mset m x v) y = if x = y then some v else mget m y := by
  intro m
  induction m with
  | nil =>
    intro x v y
    simp only [mset, mget]
  | cons kv r ih =>
    intro x v y
    obtain ⟨k, w⟩ := kv
    simp only [mset]
    by_cases hkx : k = x
    · subst hkx
      rw [if_pos rfl]
      by_cases hky : k = y <;> simp [mget, hky]
    · rw [if_neg hkx]
      by_cases hky : k = y
      · subst hky
        have hxy : ¬ (x = k) := fun h => hkx h.symm
        simp [mget, hxy]
      · simp [mget, hky, ih]

theorem mpop_cons {α : Type} (k : Str) (w : α) (r : List (Str × α)) (x : Str) :
    mpop ((k, w) :: r) x = if k = x then mpop r x else (k, w) :: mpop r x := by
  simp only [mpop, List.filter_cons]
  by_cases h : k = x
  · subst h; simp
  · simp [h]

theorem mget_mpop {α : Type} :
    ∀ (m : List (Str × α)) (x y : Str),
      mget (mpop m x) y = if x = y then none else mget m y := by
  intro m
  induction m with
  | nil => intro x y; simp [mpop, mget]
  | cons kv r ih =>
    intro x y
    obtain ⟨k, w⟩ := kv
    rw [mpop_cons]
    by_cases hkx : k = x
    · subst hkx
      rw [if_pos rfl, ih]
      by_cases hky : k = y <;> simp [mget, hky]
    · rw [if_neg hkx]
      by_cases hky : k = y
      · subst hky
        have hxy : ¬ (x = k) := fun h => hkx h.symm
        simp [mget, hxy]
      · simp [mget, hky, ih]

/-! ### The cross-structure invariant (exclusivity, symmetry, epoch equality) -/

structure MgrInv (m : Mgr) : Prop where
  qs : ∀ x : Str, x ∈ m.available_users ↔ x ∈ m.available_set
  nd : m.available_users.Nodup
  excl : ∀ x : Str, x ∈ m.available_set → mget m.active_pairs x = none
  sym : ∀ x y : Str, mget m.active_pairs x = some y → mget m.active_pairs y = some x
  irr : ∀ x : Str, mget m.active_pairs x ≠ some x
  wstate : ∀ x : Str, x ∈ m.available_set → (mget m.user_states x).isSome = true
  sess : ∀ x y : Str, mget m.active_pairs x = some y →
    ∃ sx sy, mget m.user_states x = some sx ∧ mget m.user_states y = some sy ∧
      sx.partner_session_id = sy.partner_session_id

theorem MgrInv_mgr0 : MgrInv mgr0 := by
  constructor <;> simp [mgr0, mget]

/-- Mailbox-only updates do not affect the invariant's fields. -/
theorem MgrInv_pend {m : Mgr} (h : MgrInv m) (a b : List (Str × List Str)) :
    MgrInv { m with pending_notifications := a, pending_messages := b } :=
  ⟨h.qs, h.nd, h.excl, h.sym, h.irr, h.wstate, h.sess⟩

theorem MgrInv_notes {m : Mgr} (h : MgrInv m) (a : List (Str × List Str)) :
    MgrInv { m with pending_notifications := a } :=
  ⟨h.qs, h.nd, h.excl, h.sym, h.irr, h.wstate, h.sess⟩

theorem MgrInv_msgs {m : Mgr} (h : MgrInv m) (b : List (Str × List Str)) :
    MgrInv { m with pending_messages := b } :=
  ⟨h.qs, h.nd, h.excl, h.sym, h.irr, h.wstate, h.sess⟩

theorem MgrInv_queueAdd {m : Mgr} (h : MgrInv m) (u : Str)
    (hp : mget m.active_pairs u = none) (hs : (mget m.user_states u).isSome = true) :
    MgrInv (queueAdd u m) := by
  rw [queueAdd]
  split
  · exact h
  · rename_i hu
    have hnotq : u ∉ m.available_users := fun hx => hu ((h.qs u).mp hx)
    constructor
    · intro x
      constructor
      · intro hx
        rcases List.mem_append.mp hx with hx | hx
        · exact List.mem_cons.mpr (Or.inr ((h.qs x).mp hx))
        · exact List.mem_cons.mpr (Or.inl (List.mem_singleton.mp hx))
      · intro hx
        rcases List.mem_cons.mp hx with rfl | hx
        · exact List.mem_append.mpr (Or.inr (List.mem_singleton.mpr rfl))
        · exact List.mem_append.mpr (Or.inl ((h.qs x).mpr hx))
    · refine List.nodup_append.mpr ⟨h.nd, by simp, ?_⟩
      intro a ha hb
      rw [List.mem_singleton] at hb
      subst hb
      exact hnotq ha
    · intro x hx
      rcases List.mem_cons.mp hx with rfl | hx'
      · exact hp
      · exact h.excl x hx'
    · exact h.sym
    · exact h.irr
    · intro x hx
      rcases List.mem_cons.mp hx with rfl | hx'
      · exact hs
      · exact h.wstate x hx'
    · exact h.sess

theorem MgrInv_queueRemove {m : Mgr} (h : MgrInv m) (u : Str) : MgrInv (queueRemove u m) := by
  rw [queueRemove]
  split
  case isFalse => exact h
  case isTrue hu =>
  cases hq : m.available_users with
  | nil =>
    constructor
    · intro x
      constructor
      · intro hx
        exact absurd hx (List.not_mem_nil x)
      · intro hx
        have hxs : x ∈ m.available_set := List.mem_of_mem_filter hx
        have : x ∈ m.available_users := (h.qs x).mpr hxs
        rw [hq] at this
        exact absurd this (List.not_mem_nil x)
    · exact List.nodup_nil
    · intro x hx
      exact h.excl x (List.mem_of_mem_filter hx)
    · exact h.sym
    · exact h.irr
    · intro x hx
      exact h.wstate x (List.mem_of_mem_filter hx)
    · exact h.sess
  | cons c rest =>
    have hnd : (c :: rest).Nodup := hq ▸ h.nd
    simp only [queueDrop]
    by_cases hcu : c = u
    · subst hcu
      rw [if_pos rfl]
      constructor
      · intro x
        constructor
        · intro hx
          have hxq : x ∈ m.available_users := by
            rw [hq]
            exact List.mem_cons_of_mem c hx
          have hxs : x ∈ m.available_set := (h.qs x).mp hxq
          have hxc : x ≠ c := by
            rintro rfl
            exact (List.nodup_cons.mp hnd).1 hx
          exact List.mem_filter.mpr ⟨hxs, by simpa using hxc⟩
        · intro hx
          rcases List.mem_filter.mp hx with ⟨hxs, hxc⟩
          have hxq : x ∈ c :: rest := by
            rw [← hq]
            exact (h.qs x).mpr hxs
          rcases List.mem_cons.mp hxq with rfl | hxr
          · simp at hxc
          · exact hxr
      · exact (List.nodup_cons.mp hnd).2
      · intro x hx
        exact h.excl x (List.mem_of_mem_filter hx)
      · exact h.sym
      · exact h.irr
      · intro x hx
        exact h.wstate x (List.mem_of_mem_filter hx)
      · exact h.sess
    · rw [if_neg hcu]
      constructor
      · intro x
        constructor
        · intro hx
          rcases List.mem_filter.mp hx with ⟨hxq, hxu⟩
          have hxs : x ∈ m.available_set := (h.qs x).mp (by rw [hq]; exact hxq)
          exact List.mem_filter.mpr ⟨hxs, hxu⟩
        · intro hx
          rcases List.mem_filter.mp hx with ⟨hxs, hxu⟩
          have hxq : x ∈ c :: rest := by
            rw [← hq]
            exact (h.qs x).mpr hxs
          exact List.mem_filter.mpr ⟨hxq, hxu⟩
      · exact List.Nodup.filter _ hnd
      · intro x hx
        exact h.excl x (List.mem_of_mem_filter hx)
      · exact h.sym
      · exact h.irr
      · intro x hx
        exact h.wstate x (List.mem_of_mem_filter hx)
      · exact h.sess

theorem queueRemove_pairs (u : Str) (m : Mgr) :
    (queueRemove u m).active_pairs = m.active_pairs := by
  rw [queueRemove]; split <;> rfl

theorem queueRemove_states (u : Str) (m : Mgr) :
    (queueRemove u m).user_states = m.user_states := by
  rw [queueRemove]; split <;> rfl

theorem queueRemove_session (u : Str) (m : Mgr) :
    (queueRemove u m).next_session = m.next_session := by
  rw [queueRemove]; split <;> rfl

theorem queueRemove_notes (u : Str) (m : Mgr) :
    (queueRemove u m).pending_notifications = m.pending_notifications := by
  rw [queueRemove]; split <;> rfl

theorem queueRemove_msgs (u : Str) (m : Mgr) :
    (queueRemove u m).pending_messages = m.pending_messages := by
  rw [queueRemove]; split <;> rfl

theorem queueRemove_not_mem (u : Str) (m : Mgr) :
    u ∉ (queueRemove u m).available_set := by
  rw [queueRemove]
  split
  case isTrue hu =>
    intro hx
    rcases List.mem_filter.mp hx with ⟨-, hne⟩
    simp at hne
  case isFalse hu => exact hu

/-- Replacing (or creating) one user-state entry preserves the invariant as
long as the entry's session identifier is unchanged when it already existed. -/
theorem MgrInv_mset_state {m : Mgr} (h : MgrInv m) (u : Str) (st : UserState)
    (hsess : ∀ stOld, mget m.user_states u = some stOld →
      st.partner_session_id = stOld.partner_session_id) :
    MgrInv { m with user_states := mset m.user_states u st } := by
  have hmg : ∀ z, mget (mset m.user_states u st) z =
      if u = z then some st else mget m.user_states z := fun z => mget_mset ..
  constructor
  · exact h.qs
  · exact h.nd
  · exact h.excl
  · exact h.sym
  · exact h.irr
  · intro x hx
    rw [hmg]
    split
    · simp
    · exact h.wstate x hx
  · intro x y hxy
    rcases h.sess x y hxy with ⟨sx, sy, hsx, hsy, heq⟩
    by_cases hux : u = x
    · subst hux
      have hse : st.partner_session_id = sx.partner_session_id := hsess sx hsx
      by_cases huy : u = y
      · subst huy
        exact absurd hxy (h.irr u)
      · exact ⟨st, sy, by rw [hmg]; simp, by rw [hmg, if_neg huy]; exact hsy,
          by rw [hse]; exact heq⟩
    · by_cases huy : u = y
      · subst huy
        have hse : st.partner_session_id = sy.partner_session_id := hsess sy hsy
        exact ⟨sx, st, by rw [hmg, if_neg hux]; exact hsx, by rw [hmg]; simp,
          by rw [hse]; exact heq⟩
      · exact ⟨sx, sy, by rw [hmg, if_neg hux]; exact hsx,
          by rw [hmg, if_neg huy]; exact hsy, heq⟩

theorem goc_states (u : Str) (nick : Option Str) (now : Nat) (m : Mgr) :
    (get_or_create_user_state u nick now m).2.user_states =
      mset m.user_states u (get_or_create_user_state u nick now m).1 := rfl

theorem goc_session (u : Str) (nick : Option Str) (now : Nat) (m : Mgr) :
    ∀ stOld, mget m.user_states u = some stOld →
      (get_or_create_user_state u nick now m).1.partner_session_id =
        stOld.partner_session_id := by
  intro stOld hOld
  simp [get_or_create_user_state, hOld]

theorem MgrInv_goc {m : Mgr} (h : MgrInv m) (u : Str) (nick : Option Str) (now : Nat) :
    MgrInv (get_or_create_user_state u nick now m).2 :=
  MgrInv_mset_state h u (get_or_create_user_state u nick now m).1 (goc_session u nick now m)

theorem goc_self (u : Str) (nick : Option Str) (now : Nat) (m : Mgr) :
    mget (get_or_create_user_state u nick now m).2.user_states u =
      some (get_or_create_user_state u nick now m).1 := by
  rw [goc_states, mget_mset]
  simp

theorem MgrInv_toggle {m : Mgr} (h : MgrInv m) (u : Str) (now : Nat) :
    MgrInv (toggle_phone_masking u now m).2 := by
  have h2 := MgrInv_goc h u none now
  apply MgrInv_mset_state h2
  intro stOld hOld
  rw [goc_self] at hOld
  injection hOld with hOld
  rw [← hOld]
  rfl

/-! ### `end_chat`: characterization and invariant preservation -/

theorem end_chat_none {m : Mgr} {u : Str} (hp : mget m.active_pairs u = none) :
    end_chat u m = (none, queueRemove u m) := by
  simp only [end_chat, hp]

theorem end_chat_some {m : Mgr} {u p : Str} {stu stp : UserState}
    (hp : mget m.active_pairs u = some p) (hpu : ¬ (u = p))
    (hstu : mget m.user_states u = some stu) (hstp : mget m.user_states p = some stp) :
    end_chat u m = (some p,
      { m with
        active_pairs := mpop (mpop m.active_pairs u) p,
        user_states := mset
          (mset m.user_states u ({ stu with partner_id := none, partner_session_id := none }))
          p ({ stp with partner_id := none, partner_session_id := none }),
        pending_notifications := mset m.pending_notifications p
          ((mget m.pending_notifications p).getD [] ++ [disconnectNote]) }) := by
  simp only [end_chat, hp, hstu, mget_mset, if_neg hpu, hstp]

/-- After `end_chat u`, the user `u` is unpaired. -/
theorem end_chat_unpairs {m : Mgr} (h : MgrInv m) (u : Str) :
    mget (end_chat u m).2.active_pairs u = none := by
  cases hp : mget m.active_pairs u with
  | none =>
    rw [end_chat_none hp, queueRemove_pairs]
    exact hp
  | some p =>
    have hpu : ¬ (u = p) := fun he => h.irr u (he ▸ hp)
    rcases h.sess u p hp with ⟨stu, stp, hstu, hstp, -⟩
    rw [end_chat_some hp hpu hstu hstp]
    simp only [mget_mpop]
    split
    · rfl
    · simp

/-- `end_chat` never loses a user's profile entry. -/
theorem end_chat_state_isSome {m : Mgr} (h : MgrInv m) (u x : Str)
    (hx : (mget m.user_states x).isSome = true) :
    (mget (end_chat u m).2.user_states x).isSome = true := by
  cases hp : mget m.active_pairs u with
  | none =>
    rw [end_chat_none hp, queueRemove_states]
    exact hx
  | some p =>
    have hpu : ¬ (u = p) := fun he => h.irr u (he ▸ hp)
    rcases h.sess u p hp with ⟨stu, stp, hstu, hstp, -⟩
    rw [end_chat_some hp hpu hstu hstp]
    simp only [mget_mset]
    split
    · simp
    · split
      · simp
      · exact hx

/-- After `end_chat u`, the user `u` is not in the waiting set. -/
theorem end_chat_not_waiting {m : Mgr} (h : MgrInv m) (u : Str) :
    u ∉ (end_chat u m).2.available_set := by
  cases hp : mget m.active_pairs u with
  | none =>
    rw [end_chat_none hp]
    exact queueRemove_not_mem u m
  | some p =>
    have hpu : ¬ (u = p) := fun he => h.irr u (he ▸ hp)
    rcases h.sess u p hp with ⟨stu, stp, hstu, hstp, -⟩
    rw [end_chat_some hp hpu hstu hstp]
    intro hmem
    have := h.excl u hmem
    rw [hp] at this
    exact absurd this (by simp)

theorem MgrInv_end_chat {m : Mgr} (h : MgrInv m) (u : Str) : MgrInv (end_chat u m).2 := by
  cases hp : mget m.active_pairs u with
  | none =>
    rw [end_chat_none hp]
    exact MgrInv_queueRemove h u
  | some p =>
    have hpu : ¬ (u = p) := fun he => h.irr u (he ▸ hp)
    have hpp : mget m.active_pairs p = some u := h.sym u p hp
    rcases h.sess u p hp with ⟨stu, stp, hstu, hstp, -⟩
    rw [end_chat_some hp hpu hstu hstp]
    have hpair : ∀ z, mget (mpop (mpop m.active_pairs u) p) z =
        if p = z then none else if u = z then none else mget m.active_pairs z := by
      intro z
      rw [mget_mpop, mget_mpop]
    have hstates : ∀ z, mget (mset
        (mset m.user_states u ({ stu with partner_id := none, partner_session_id := none }))
        p ({ stp with partner_id := none, partner_session_id := none })) z =
        if p = z then some ({ stp with partner_id := none, partner_session_id := none })
        else if u = z then some ({ stu with partner_id := none, partner_session_id := none })
        else mget m.user_states z := by
      intro z
      rw [mget_mset, mget_mset]
    constructor
    · exact h.qs
    · exact h.nd
    · intro x hx
      rw [hpair]
      split
      · rfl
      · split
        · rfl
        · exact h.excl x hx
    · intro x y hxy
      rw [hpair] at hxy
      split at hxy
      · exact absurd hxy (by simp)
      · split at hxy
        · exact absurd hxy (by simp)
        · rename_i hpx hux
          have hyu : ¬ (u = y) := by
            rintro rfl
            have := h.sym x u hxy
            rw [hp] at this
            injection this with this
            exact hpx this
          have hyp : ¬ (p = y) := by
            rintro rfl
            have := h.sym x p hxy
            rw [hpp] at this
            injection this with this
            exact hux this
          rw [hpair, if_neg hyp, if_neg hyu]
          exact h.sym x y hxy
    · intro x
      rw [hpair]
      split
      · simp
      · split
        · simp
        · exact h.irr x
    · intro x hx
      rw [hstates]
      split
      · simp
      · split
        · simp
        · exact h.wstate x hx
    · intro x y hxy
      rw [hpair] at hxy
      split at hxy
      · exact absurd hxy (by simp)
      · split at hxy
        · exact absurd hxy (by simp)
        · rename_i hpx hux
          have hyu : ¬ (u = y) := by
            rintro rfl
            have := h.sym x u hxy
            rw [hp] at this
            injection this with this
            exact hpx this
          have hyp : ¬ (p = y) := by
            rintro rfl
            have := h.sym x p hxy
            rw [hpp] at this
            injection this with this
            exact hux this
          rcases h.sess x y hxy with ⟨sx, sy, hsx, hsy, heq⟩
          refine ⟨sx, sy, ?_, ?_, heq⟩
          · rw [hstates, if_neg hpx, if_neg hux]
            exact hsx
          · rw [hstates, if_neg hyp, if_neg hyu]
            exact hsy

/-! ### `find_partner`: characterization and invariant preservation -/

theorem popLive_head {avset : List Str} {c : Str} (rest : List Str) (hc : c ∈ avset) :
    popLive avset (c :: rest) = some (c, rest) := by
  simp [popLive, hc]

theorem popLive_skip {avset : List Str} :
    ∀ (pre : List Str) (c : Str) (rest : List Str), (∀ x ∈ pre, x ∉ avset) → c ∈ avset →
      popLive avset (pre ++ c :: rest) = some (c, rest) := by
  intro pre
  induction pre with
  | nil => intro c rest _ hc; simpa using popLive_head rest hc
  | cons a pre' ih =>
    intro c rest hstale hc
    have ha : a ∉ avset := hstale a (by simp)
    simp only [List.cons_append, popLive, if_neg ha]
    exact ih c rest (fun x hx => hstale x (by simp [hx])) hc

theorem find_partner_nomatch {m : Mgr} {u : Str}
    (hne : (queueRemove u m).available_users = []) :
    find_partner u m = (none, queueAdd u (queueRemove u m)) := by
  simp only [find_partner]
  rw [if_pos hne]

theorem find_partner_some_eq {m : Mgr} {u partner : Str} {rest : List Str}
    {stu stp : UserState}
    (hne : ¬ ((queueRemove u m).available_users = []))
    (hpop : popLive (queueRemove u m).available_set (queueRemove u m).available_users =
      some (partner, rest))
    (hup : ¬ (u = partner))
    (hstu : mget m.user_states u = some stu)
    (hstp : mget m.user_states partner = some stp) :
    find_partner u m = (some partner,
      { queueRemove u m with
        available_users := rest,
        available_set := (queueRemove u m).available_set.filter (fun x => x != partner),
        active_pairs := mset (mset m.active_pairs u partner) partner u,
        next_session := m.next_session + 1,
        user_states := mset (mset m.user_states u
            ({ stu with partner_id := some partner, partner_session_id := some m.next_session }))
          partner
          ({ stp with partner_id := some u, partner_session_id := some m.next_session }),
        pending_notifications := mset m.pending_notifications partner
          ((mget m.pending_notifications partner).getD [] ++ [connectNote stu.nickname]) }) := by
  have hpu : ¬ (partner = u) := fun he => hup he.symm
  simp only [find_partner]
  rw [if_neg hne, hpop]
  simp only [queueRemove_pairs, queueRemove_states, queueRemove_session, queueRemove_notes,
    hstu, mget_mset, if_neg hup, hstp, if_neg hpu]
  simp

theorem MgrInv_find_partner {m : Mgr} (h : MgrInv m) (u : Str)
    (hp : mget m.active_pairs u = none) (hs : (mget m.user_states u).isSome = true) :
    MgrInv (find_partner u m).2 := by
  have h1 := MgrInv_queueRemove h u
  by_cases hne : (queueRemove u m).available_users = []
  · rw [find_partner_nomatch hne]
    refine MgrInv_queueAdd h1 u ?_ ?_
    · rw [queueRemove_pairs]; exact hp
    · rw [queueRemove_states]; exact hs
  · cases hq : (queueRemove u m).available_users with
    | nil => exact absurd hq hne
    | cons c rest' =>
      have hcs : c ∈ (queueRemove u m).available_set := (h1.qs c).mp (by rw [hq]; simp)
      have hpop : popLive (queueRemove u m).available_set (queueRemove u m).available_users =
          some (c, rest') := by
        rw [hq]; exact popLive_head rest' hcs
      have hus : u ∉ (queueRemove u m).available_set := queueRemove_not_mem u m
      have hup : ¬ (u = c) := fun he => hus (he ▸ hcs)
      have hcstate : (mget (queueRemove u m).user_states c).isSome = true := h1.wstate c hcs
      rw [queueRemove_states] at hcstate
      rcases Option.isSome_iff_exists.mp hcstate with ⟨stp, hstp⟩
      rcases Option.isSome_iff_exists.mp hs with ⟨stu, hstu⟩
      have hcp : mget m.active_pairs c = none := by
        have := h1.excl c hcs
        rwa [queueRemove_pairs] at this
      have hnd1 : (c :: rest').Nodup := hq ▸ h1.nd
      rw [find_partner_some_eq hne hpop hup hstu hstp]
      have hpair : ∀ z, mget (mset (mset m.active_pairs u c) c u) z =
          if c = z then some u else if u = z then some c else mget m.active_pairs z := by
        intro z
        rw [mget_mset, mget_mset]
      have hstates : ∀ z, mget (mset (mset m.user_states u ({ stu with partner_id := some c, partner_session_id := some m.next_session })) c ({ stp with partner_id := some u, partner_session_id := some m.next_session })) z = if c = z then some ({ stp with partner_id := some u, partner_session_id := some m.next_session }) else if u = z then some ({ stu with partner_id := some c, partner_session_id := some m.next_session }) else mget m.user_states z := by
        intro z
        rw [mget_mset, mget_mset]
      constructor
      · intro x
        constructor
        · intro hx
          have hxq : x ∈ (queueRemove u m).available_users := by
            rw [hq]
            exact List.mem_cons_of_mem c hx
          have hxs := (h1.qs x).mp hxq
          have hxc : x ≠ c := by
            rintro rfl
            exact (List.nodup_cons.mp hnd1).1 hx
          exact List.mem_filter.mpr ⟨hxs, by simpa using hxc⟩
        · intro hx
          rcases List.mem_filter.mp hx with ⟨hxs, hxc⟩
          have hxq : x ∈ c :: rest' := by
            rw [← hq]
            exact (h1.qs x).mpr hxs
          rcases List.mem_cons.mp hxq with rfl | hxr
          · simp at hxc
          · exact hxr
      · exact (List.nodup_cons.mp hnd1).2
      · intro x hx
        rcases List.mem_filter.mp hx with ⟨hxs, hxc⟩
        have hxc' : ¬ (c = x) := by
          intro he
          subst he
          simp at hxc
        have hxu : ¬ (u = x) := by
          rintro rfl
          exact hus hxs
        rw [hpair, if_neg hxc', if_neg hxu]
        have := h1.excl x hxs
        rwa [queueRemove_pairs] at this
      · intro x y hxy
        rw [hpair] at hxy
        split at hxy
        · rename_i hcx
          injection hxy with hxy
          subst hcx
          subst hxy
          rw [hpair, if_neg (fun he => hup he.symm), if_pos rfl]
        · split at hxy
          · rename_i hcx hux
            injection hxy with hxy
            subst hux
            subst hxy
            rw [hpair, if_pos rfl]
          · rename_i hcx hux
            have hyu : ¬ (u = y) := by
              rintro rfl
              have := h.sym x u hxy
              rw [hp] at this
              exact absurd this (by simp)
            have hyc : ¬ (c = y) := by
              rintro rfl
              have := h.sym x c hxy
              rw [hcp] at this
              exact absurd this (by simp)
            rw [hpair, if_neg hyc, if_neg hyu]
            exact h.sym x y hxy
      · intro x
        rw [hpair]
        split
        · rename_i hcx
          subst hcx
          intro hcon
          injection hcon with hcon
          exact hup hcon
        · split
          · rename_i hcx hux
            subst hux
            intro hcon
            injection hcon with hcon
            exact hup hcon.symm
          · exact h.irr x
      · intro x hx
        rcases List.mem_filter.mp hx with ⟨hxs, -⟩
        rw [hstates]
        split
        · simp
        · split
          · simp
          · have := h1.wstate x hxs
            rwa [queueRemove_states] at this
      · intro x y hxy
        rw [hpair] at hxy
        split at hxy
        · rename_i hcx
          injection hxy with hxy
          subst hcx
          subst hxy
          refine ⟨{ stp with partner_id := some u, partner_session_id := some m.next_session }, { stu with partner_id := some c, partner_session_id := some m.next_session }, ?_, ?_, rfl⟩
          · rw [hstates, if_pos rfl]
          · rw [hstates, if_neg (fun he => hup he.symm), if_pos rfl]
        · split at hxy
          · rename_i hcx hux
            injection hxy with hxy
            subst hux
            subst hxy
            refine ⟨{ stu with partner_id := some c, partner_session_id := some m.next_session }, { stp with partner_id := some u, partner_session_id := some m.next_session }, ?_, ?_, rfl⟩
            · rw [hstates, if_neg hcx, if_pos rfl]
            · rw [hstates, if_pos rfl]
          · rename_i hcx hux
            have hyu : ¬ (u = y) := by
              rintro rfl
              have := h.sym x u hxy
              rw [hp] at this
              exact absurd this (by simp)
            have hyc : ¬ (c = y) := by
              rintro rfl
              have := h.sym x c hxy
              rw [hcp] at this
              exact absurd this (by simp)
            rcases h.sess x y hxy with ⟨sx, sy, hsx, hsy, heq⟩
            refine ⟨sx, sy, ?_, ?_, heq⟩
            · rw [hstates, if_neg hcx, if_neg hux]
              exact hsx
            · rw [hstates, if_neg hyc, if_neg hyu]
              exact hsy

/-! ### Invariant preservation for the dispatched operations -/

theorem MgrInv_cleanup_step {m : Mgr} (h : MgrInv m) (u : Str) :
    MgrInv (let m1 := (end_chat u m).2
            { m1 with user_states := mpop m1.user_states u }) := by
  have h2 := MgrInv_end_chat h u
  have hup := end_chat_unpairs h u
  have hus := end_chat_not_waiting h u
  constructor
  · exact h2.qs
  · exact h2.nd
  · exact h2.excl
  · exact h2.sym
  · exact h2.irr
  · intro x hx
    rw [mget_mpop]
    split
    · rename_i hux
      subst hux
      exact absurd hx hus
    · exact h2.wstate x hx
  · intro x y hxy
    rcases h2.sess x y hxy with ⟨sx, sy, hsx, hsy, heq⟩
    have hxu : ¬ (u = x) := by
      rintro rfl
      rw [hup] at hxy
      exact absurd hxy (by simp)
    have hyu : ¬ (u = y) := by
      rintro rfl
      have := h2.sym x u hxy
      rw [hup] at this
      exact absurd this (by simp)
    refine ⟨sx, sy, ?_, ?_, heq⟩
    · rw [mget_mpop, if_neg hxu]
      exact hsx
    · rw [mget_mpop, if_neg hyu]
      exact hsy

theorem MgrInv_cleanup_fold {m : Mgr} (h : MgrInv m) :
    ∀ (us : List Str), MgrInv (us.foldl (fun m u =>
      let m1 := (end_chat u m).2
      { m1 with user_states := mpop m1.user_states u }) m) := by
  intro us
  induction us generalizing m with
  | nil => exact h
  | cons a us' ih =>
    simp only [List.foldl_cons]
    exact ih (MgrInv_cleanup_step h a)

theorem MgrInv_cleanup {m : Mgr} (h : MgrInv m) (t now : Nat) :
    MgrInv (cleanup_inactive_users t now m) := by
  rw [cleanup_inactive_users]
  exact MgrInv_cleanup_fold h _

theorem MgrInv_routing {m : Mgr} (h : MgrInv m) (u msg : Str) :
    MgrInv (handle_message_routing u msg m).2 := by
  rw [handle_message_routing]
  split
  · exact MgrInv_notes h _
  · split
    · exact MgrInv_notes h _
    · split
      · split
        · exact MgrInv_msgs (MgrInv_notes h _) _
        · exact MgrInv_notes h _
      · exact MgrInv_notes h _
      · exact MgrInv_notes h _

theorem MgrInv_handle_meet {m : Mgr} (h : MgrInv m) (u : Str)
    (hs : (mget m.user_states u).isSome = true) : MgrInv (handle_meet u m).2 := by
  rw [handle_meet]
  cases hp : get_partner u m with
  | some p => exact h
  | none =>
    have hfp := MgrInv_find_partner h u hp hs
    cases hr : find_partner u m with
    | mk po m2 =>
      rw [hr] at hfp
      cases po <;> exact hfp

theorem MgrInv_handle_bye {m : Mgr} (h : MgrInv m) (u : Str) : MgrInv (handle_bye u m).2 := by
  rw [handle_bye]
  have he := MgrInv_end_chat h u
  cases hr : end_chat u m with
  | mk o m2 =>
    rw [hr] at he
    cases o <;> exact he

theorem MgrInv_handle_again {m : Mgr} (h : MgrInv m) (u : Str)
    (hs : (mget m.user_states u).isSome = true) : MgrInv (handle_again u m).2 := by
  rw [handle_again]
  have h1 := MgrInv_end_chat h u
  have hp1 := end_chat_unpairs h u
  have hs1 := end_chat_state_isSome h u u hs
  have hfp := MgrInv_find_partner h1 u hp1 hs1
  cases hr : find_partner u (end_chat u m).2 with
  | mk po m2 =>
    rw [hr] at hfp
    cases po <;> exact hfp

theorem MgrInv_handle_hide {m : Mgr} (h : MgrInv m) (u : Str) (now : Nat) :
    MgrInv (handle_hide u now m).2 :=
  MgrInv_toggle h u now

theorem MgrInv_handle_who {m : Mgr} (h : MgrInv m) (u : Str) : MgrInv (handle_who u m).2 := by
  rw [handle_who]
  cases get_partner_nickname u m <;> exact h

theorem MgrInv_handle_inbox {m : Mgr} (h : MgrInv m) (u : Str) :
    MgrInv (handle_inbox u m).2 := by
  rw [handle_inbox]
  split <;> exact MgrInv_pend h _ _

theorem MgrInv_rbranch {m : Mgr} (h : MgrInv m) (u c : Str) :
    MgrInv (if c = [] then ((usageMsg, m) : Str × Mgr)
            else handle_message_routing u c m).2 := by
  split
  · exact h
  · exact MgrInv_routing h u c

theorem MgrInv_dispatch {m : Mgr} (h : MgrInv m) (u msg : Str) (now : Nat)
    (hs : (mget m.user_states u).isSome = true) : MgrInv (dispatch u msg now m).2 := by
  rw [dispatch]
  split
  · exact MgrInv_handle_meet h u hs
  · split
    · exact MgrInv_handle_bye h u
    · split
      · exact MgrInv_handle_again h u hs
      · split
        · exact MgrInv_handle_hide h u now
        · split
          · exact MgrInv_handle_who h u
          · split
            · exact MgrInv_handle_inbox h u
            · split
              · exact MgrInv_rbranch h u _
              · split
                · have h2 := MgrInv_routing h u msg
                  simp only []
                  cases hq : (mget (handle_message_routing u msg m).2.pending_messages u).getD [] with
                  | nil => exact MgrInv_msgs h2 _
                  | cons a l => exact MgrInv_msgs h2 _
                · exact h

theorem MgrInv_process {m : Mgr} (h : MgrInv m) (u msgRaw : Str) (nick : Option Str)
    (now : Nat) : MgrInv (process_message u msgRaw nick now m).2 := by
  have h1 := MgrInv_goc h u nick now
  have hs1 : (mget (get_or_create_user_state u nick now m).2.user_states u).isSome = true := by
    rw [goc_self]; rfl
  rw [process_message]
  exact MgrInv_dispatch h1 u _ now hs1

/-- Every reachable state satisfies the cross-structure invariant. -/
theorem reachable_inv {m : Mgr} (h : Reachable m) : MgrInv m := by
  induction h with
  | start => exact MgrInv_mgr0
  | step u msgRaw nick now hr ih => exact MgrInv_process ih u msgRaw nick now
  | sweep t now hr ih => exact MgrInv_cleanup ih t now

/-! ### Helper characterizations used by the claim theorems -/

/-- `s` contains a run of at least `k` contiguous digits somewhere. -/
def hasRun (k : Nat) : Str → Bool
  | [] => false
  | c :: r => (decide (k ≤ countCls isDigitC (c :: r))) || hasRun k r

/-- One capped enqueue step of `_handle_message_routing` (append, then
`del queue[0]` past 100 entries). -/
def capAppend (q : List Str) (x : Str) : List Str :=
  let q0 := q ++ [x]
  if 100 < q0.length then q0.drop 1 else q0

/-- Iterated relay: send each text of `msgs` in order through
`handle_message_routing` from the same sender. -/
def relaySeq (u : Str) (m : Mgr) : List Str → Mgr
  | [] => m
  | t :: ts => relaySeq u (handle_message_routing u t m).2 ts

theorem routing_note {m : Mgr} {u : Str} {n : Str} {ns : List Str}
    (hn : (mget m.pending_notifications u).getD [] = n :: ns) (txt : Str) :
    handle_message_routing u txt m = ((n :: ns).getLastD n,
      { m with pending_notifications := mpop m.pending_notifications u }) := by
  rw [handle_message_routing]
  simp only [hn]

theorem routing_success {m : Mgr} {u p : Str} {me pa : UserState}
    (hno : (mget m.pending_notifications u).getD [] = [])
    (hp : mget m.active_pairs u = some p)
    (hme : mget m.user_states u = some me)
    (hpa : mget m.user_states p = some pa)
    (hsid : me.partner_session_id = pa.partner_session_id) (txt : Str) :
    handle_message_routing u txt m = (sentMsg me.nickname txt,
      { m with pending_notifications := mpop m.pending_notifications u,
               pending_messages := mset m.pending_messages p
                 (capAppend ((mget m.pending_messages p).getD [])
                   (if me.phone_masking_enabled then maskL txt else txt)) }) := by
  rw [handle_message_routing]
  simp only [hno, hp, hme, hpa]
  rw [if_pos hsid]
  rfl

theorem relaySeq_run {me pa : UserState} {u p : Str} :
    ∀ (msgs : List Str) (m : Mgr),
      m.pending_notifications = [] →
      mget m.active_pairs u = some p →
      mget m.user_states u = some me →
      mget m.user_states p = some pa →
      me.partner_session_id = pa.partner_session_id →
      (mget (relaySeq u m msgs).pending_messages p).getD [] =
        msgs.foldl (fun q t => capAppend q
          (if me.phone_masking_enabled then maskL t else t))
          ((mget m.pending_messages p).getD []) := by
  intro msgs
  induction msgs with
  | nil => intro m _ _ _ _ _; rfl
  | cons t ts ih =>
    intro m hn hp hme hpa hsid
    have hno : (mget m.pending_notifications u).getD [] = [] := by
      rw [hn]; rfl
    rw [relaySeq, routing_success hno hp hme hpa hsid t]
    have hstep := ih { m with
      pending_notifications := mpop m.pending_notifications u,
      pending_messages := mset m.pending_messages p
        (capAppend ((mget m.pending_messages p).getD [])
          (if me.phone_masking_enabled then maskL t else t)) }
      (by rw [hn]; rfl) hp hme hpa hsid
    rw [hstep]
    simp [List.foldl_cons, mget_mset]

theorem capFold_lastN :
    ∀ (xs : List Str) (q : List Str), q.length ≤ 100 →
      xs.foldl capAppend q = lastN 100 (q ++ xs) := by
  intro xs
  induction xs with
  | nil =>
    intro q hq
    simp [lastN, Nat.sub_eq_zero_of_le hq]
  | cons x xs ih =>
    intro q hq
    rw [List.foldl_cons]
    by_cases hlen : 100 < (q ++ [x]).length
    · have hcap : capAppend q x = (q ++ [x]).drop 1 := by
        simp only [capAppend]
        rw [if_pos hlen]
      have hlq : q.length = 100 := by simp at hlen; omega
      rw [hcap, ih _ (by simp [hlq])]
      have e1 : ((q ++ [x]) ++ xs).drop 1 = (q ++ [x]).drop 1 ++ xs :=
        List.drop_append_of_le_length (by simp)
      rw [← e1]
      have e2 : q ++ x :: xs = (q ++ [x]) ++ xs := by simp
      rw [e2]
      simp only [lastN, List.drop_drop, List.length_drop, List.length_append,
        List.length_cons, List.length_nil, hlq]
      congr 1
      omega
    · have hcap : capAppend q x = q ++ [x] := by
        simp only [capAppend]
        rw [if_neg hlen]
      rw [hcap, ih _ (by simp at hlen ⊢; omega)]
      have e2 : (q ++ [x]) ++ xs = q ++ x :: xs := by simp
      rw [e2]

theorem dispatch_rEmpty {msg : Str}
    (h1 : "#meet".data.isPrefixOf (plower (pstrip msg)) = false)
    (h2 : "#bye".data.isPrefixOf (plower (pstrip msg)) = false)
    (h3 : "#again".data.isPrefixOf (plower (pstrip msg)) = false)
    (h4 : "#hide".data.isPrefixOf (plower (pstrip msg)) = false)
    (h5 : "#who".data.isPrefixOf (plower (pstrip msg)) = false)
    (h6 : "#m".data.isPrefixOf (plower (pstrip msg)) = false)
    (h7 : "#r".data.isPrefixOf (plower (pstrip msg)) = true)
    (hc : (if 2 < (pstrip msg).length then pstrip ((pstrip msg).drop 2) else []) = [])
    (u : Str) (now : Nat) (m : Mgr) :
    dispatch u msg now m = (usageMsg, m) := by
  simp only [dispatch]
  rw [if_neg (by simp [h1]), if_neg (by simp [h2]), if_neg (by simp [h3]),
    if_neg (by simp [h4]), if_neg (by simp [h5]), if_neg (by simp [h6]), if_pos h7]
  rw [hc]
  rw [if_pos rfl]

theorem find_partner_notes {m m2 : Mgr} {u p : Str}
    (hfp : find_partner u m = (some p, m2)) :
    ∃ old nick, mget m2.pending_notifications p = some (old ++ [connectNote nick]) := by
  simp only [find_partner] at hfp
  by_cases hne : (queueRemove u m).available_users = []
  · rw [if_pos hne] at hfp
    exact absurd (congrArg Prod.fst hfp) (by simp)
  · rw [if_neg hne] at hfp
    cases hpop : popLive (queueRemove u m).available_set
        (queueRemove u m).available_users with
    | none =>
      rw [hpop] at hfp
      exact absurd (congrArg Prod.fst hfp) (by simp)
    | some pr =>
      obtain ⟨partner, rest⟩ := pr
      rw [hpop] at hfp
      simp only [Prod.mk.injEq, Option.some.injEq] at hfp
      obtain ⟨hp1, hm2⟩ := hfp
      subst hp1
      subst hm2
      exact ⟨_, _, by rw [mget_mset, if_pos rfl]⟩

/-! ### Concrete states used by the claim witnesses and counterexamples -/

/-- One user `a` has sent `#meet` and is waiting. -/
def mgrA : Mgr := (process_message "a".data "#meet".data none 0 mgr0).2

/-- A second user `b` has sent `#meet`; `a` and `b` are now paired. -/
def mgrAB : Mgr := (process_message "b".data "#meet".data none 0 mgrA).2

theorem mgrA_reach : Reachable mgrA :=
  Reachable.step "a".data "#meet".data none 0 Reachable.start

theorem mgrAB_reach : Reachable mgrAB :=
  Reachable.step "b".data "#meet".data none 0 mgrA_reach

def stU : UserState := ⟨"u".data, "U".data, false, some "p".data, some 0, 0⟩

def stP : UserState := ⟨"p".data, "P".data, false, some "u".data, some 0, 0⟩

def stD : UserState := ⟨"d".data, "D".data, true, none, none, 0⟩

def stA : UserState := ⟨"a".data, "A".data, true, none, none, 0⟩

def stB : UserState := ⟨"b".data, "B".data, true, none, none, 0⟩

/-- `u` and `p` paired with equal session epochs, masking off, clean inboxes. -/
def mgrPair : Mgr :=
  ⟨[], [], [("u".data, "p".data), ("p".data, "u".data)],
   [("u".data, stU), ("p".data, stP)], [], [], true, 1⟩

/-- Like `mgrPair` but `u` has two unread notifications. -/
def mgrNote : Mgr :=
  { mgrPair with pending_notifications := [("u".data, ["n1".data, "n2".data])] }

/-- Waiting queue `[s, a, b, c]` where `s` is stale (absent from the set). -/
def mgrQ : Mgr :=
  ⟨["s".data, "a".data, "b".data, "c".data], ["a".data, "b".data, "c".data], [],
   [("d".data, stD), ("a".data, stA)], [], [], true, 0⟩

/-- A single registered user `u` with `last_activity = 0`. -/
def mgrC9 : Mgr := { mgr0 with user_states := [("u".data, stU)] }

/-- User `a` waiting; `b` about to request a match. -/
def mgrW10 : Mgr :=
  ⟨["a".data], ["a".data], [], [("a".data, stA), ("b".data, stB)], [], [], true, 0⟩

/-! ### The claims -/

/-- C1: in every reachable state the deque `available_users` and the set
`available_set` agree, and a user in the waiting queue has no entry in
`active_pairs` — waiting and paired are mutually exclusive.  Reachability is
closed under every exposed operation (`process_message`, which dispatches to
`find_partner` and `end_chat`, and `cleanup_inactive_users`), so each of them
preserves the exclusion. -/
theorem claim_C1 {m : Mgr} (h : Reachable m) (x : Str) :
    (x ∈ m.available_users ↔ x ∈ m.available_set) ∧
    ((x ∈ m.available_users ∨ x ∈ m.available_set) → mget m.active_pairs x = none) := by
  have hi := reachable_inv h
  refine ⟨hi.qs x, fun hx => ?_⟩
  rcases hx with hx | hx
  · exact hi.excl x ((hi.qs x).mp hx)
  · exact hi.excl x hx

theorem claim_C1_witness :
    ("a".data ∈ mgrA.available_users ↔ "a".data ∈ mgrA.available_set) ∧
    (("a".data ∈ mgrA.available_users ∨ "a".data ∈ mgrA.available_set) →
      mget mgrA.active_pairs "a".data = none) :=
  claim_C1 mgrA_reach "a".data

/-- C2: in every reachable state the pair map is symmetric, and the two
members of a pair both have stored profiles carrying the same
`partner_session_id` epoch. -/
theorem claim_C2 {m : Mgr} (h : Reachable m) (a b : Str)
    (hab : mget m.active_pairs a = some b) :
    mget m.active_pairs b = some a ∧
    ∃ sa sb, mget m.user_states a = some sa ∧ mget m.user_states b = some sb ∧
      sa.partner_session_id = sb.partner_session_id := by
  have hi := reachable_inv h
  exact ⟨hi.sym a b hab, hi.sess a b hab⟩

theorem claim_C2_witness :
    mget mgrAB.active_pairs "b".data = some "a".data ∧
    ∃ sa sb, mget mgrAB.user_states "a".data = some sa ∧
      mget mgrAB.user_states "b".data = some sb ∧
      sa.partner_session_id = sb.partner_session_id :=
  claim_C2 mgrAB_reach "a".data "b".data (by decide)

/-- C3 (amended): on a successful relay the router appends the re-masked text
(per the sender\x27s preference) to the recipient\x27s capped queue, and the
confirmation echoes the text exactly as the router received it.  Because
`process_message` masks before extracting the `#r` payload, that echoed text
is the post-masking text, not the sender\x27s original submission (see
`claim_C3_counterexample`). -/
theorem claim_C3 {m : Mgr} {u p : Str} {me pa : UserState}
    (hno : (mget m.pending_notifications u).getD [] = [])
    (hp : mget m.active_pairs u = some p)
    (hme : mget m.user_states u = some me)
    (hpa : mget m.user_states p = some pa)
    (hsid : me.partner_session_id = pa.partner_session_id) (txt : Str) :
    mget (handle_message_routing u txt m).2.pending_messages p =
      some (capAppend ((mget m.pending_messages p).getD [])
        (if me.phone_masking_enabled then maskL txt else txt)) ∧
    (handle_message_routing u txt m).1 = sentMsg me.nickname txt := by
  rw [routing_success hno hp hme hpa hsid txt]
  constructor
  · simp [mget_mset]
  · rfl

theorem claim_C3_witness :
    mget (handle_message_routing "u".data "hi".data mgrPair).2.pending_messages "p".data =
      some (capAppend ((mget mgrPair.pending_messages "p".data).getD [])
        (if stU.phone_masking_enabled then maskL "hi".data else "hi".data)) ∧
    (handle_message_routing "u".data "hi".data mgrPair).1 =
      sentMsg stU.nickname "hi".data :=
  @claim_C3 mgrPair "u".data "p".data stU stP rfl (by decide) (by decide) (by decide)
    rfl "hi".data

theorem claim_C3_counterexample :
    (process_message "b".data "#r call me at 9876543210".data none 0 mgrAB).1 =
      sentMsg (defaultNick "b".data) "call me at [hidden]".data ∧
    (process_message "b".data "#r call me at 9876543210".data none 0 mgrAB).1 ≠
      sentMsg (defaultNick "b".data) "call me at 9876543210".data := by decide

/-- C4: a relay issued while the pending-notification queue is non-empty
returns the most recent notification instead, and no message is appended to
any queue (`pending_messages` is left exactly as it was). -/
theorem claim_C4 {m : Mgr} {u n : Str} {ns : List Str}
    (hn : (mget m.pending_notifications u).getD [] = n :: ns) (txt : Str) :
    (handle_message_routing u txt m).1 = (n :: ns).getLastD n ∧
    (handle_message_routing u txt m).2.pending_messages = m.pending_messages := by
  rw [routing_note hn txt]
  exact ⟨rfl, rfl⟩

theorem claim_C4_witness :
    (handle_message_routing "u".data "hi".data mgrNote).1 =
      (("n1".data : Str) :: ["n2".data]).getLastD "n1".data ∧
    (handle_message_routing "u".data "hi".data mgrNote).2.pending_messages =
      mgrNote.pending_messages :=
  @claim_C4 mgrNote "u".data "n1".data ["n2".data] (by decide) "hi".data

/-- C5: the redaction function is idempotent — masking already-masked text is
a no-op, for every input string. -/
theorem claim_C5 (x : String) :
    mask_phone_numbers (mask_phone_numbers x) = mask_phone_numbers x := by
  simp only [mask_phone_numbers]
  exact congrArg (fun l => String.mk l) (maskL_idem x.data)

/-- C6 (amended): after redaction the catch-all `\b\d{8,}\b` has no match
anywhere in the output (no boundary-delimited run of 8 or more digits
remains), and the cited example redacts to text with no 8+ digit run.  The
original blanket reading — no 8+ contiguous digit run at all — is false when
the run is glued to word characters, see `claim_C6_counterexample`. -/
theorem claim_C6 (s : Str) :
    noMatchFrom patB none (maskL s) = true ∧
    hasRun 8 (maskL "call me at 9876543210".data) = false := by
  constructor
  · rw [maskL, reSub_def]
    exact subFrom_patB_selfclear "[hidden]".data hidden_nondigit hidden_ne_nil _ none
  · decide

theorem claim_C6_counterexample :
    hasRun 8 (maskL "a12345678b".data) = true ∧
    maskL "a12345678b".data = "a12345678b".data := by decide

/-- C7: starting from an empty queue for the recipient, relaying 101 messages
with no intervening drain leaves the queue holding exactly the most recent
100 (equivalently, the original list with its single oldest entry dropped) in
arrival order — FIFO eviction on each overflow. -/
theorem claim_C7 {m : Mgr} {u p : Str} {me pa : UserState}
    (hn : m.pending_notifications = [])
    (hp : mget m.active_pairs u = some p)
    (hme : mget m.user_states u = some me)
    (hpa : mget m.user_states p = some pa)
    (hsid : me.partner_session_id = pa.partner_session_id)
    (hq : mget m.pending_messages p = none)
    (msgs : List Str) (hlen : msgs.length = 101) :
    (mget (relaySeq u m msgs).pending_messages p).getD [] =
      (msgs.map (fun t => if me.phone_masking_enabled then maskL t else t)).drop 1 ∧
    (mget (relaySeq u m msgs).pending_messages p).getD [] =
      lastN 100 (msgs.map (fun t => if me.phone_masking_enabled then maskL t else t)) := by
  have h1 := relaySeq_run msgs m hn hp hme hpa hsid
  rw [hq] at h1
  have h2 : msgs.foldl (fun q t => capAppend q
      (if me.phone_masking_enabled then maskL t else t)) ((none : Option (List Str)).getD []) =
      (msgs.map (fun t => if me.phone_masking_enabled then maskL t else t)).foldl capAppend [] := by
    rw [List.foldl_map]
    rfl
  have h3 := capFold_lastN
    (msgs.map (fun t => if me.phone_masking_enabled then maskL t else t)) [] (by simp)
  have hml : (msgs.map (fun t => if me.phone_masking_enabled then maskL t else t)).length = 101 := by
    rw [List.length_map, hlen]
  have hfin : (mget (relaySeq u m msgs).pending_messages p).getD [] =
      lastN 100 (msgs.map (fun t => if me.phone_masking_enabled then maskL t else t)) := by
    rw [h1, h2, h3]
    rfl
  refine ⟨?_, hfin⟩
  rw [hfin]
  simp only [lastN, hml]

theorem claim_C7_witness :
    (mget (relaySeq "u".data mgrPair
        (List.replicate 101 "x".data)).pending_messages "p".data).getD [] =
      ((List.replicate 101 "x".data).map
        (fun t => if stU.phone_masking_enabled then maskL t else t)).drop 1 ∧
    (mget (relaySeq "u".data mgrPair
        (List.replicate 101 "x".data)).pending_messages "p".data).getD [] =
      lastN 100 ((List.replicate 101 "x".data).map
        (fun t => if stU.phone_masking_enabled then maskL t else t)) :=
  @claim_C7 mgrPair "u".data "p".data stU stP rfl (by decide) (by decide) (by decide)
    rfl rfl (List.replicate 101 "x".data) (by decide)

/-- C8: when the waiting queue holds a (possibly stale) prefix followed by
the earliest still-live user `a`, a new requester `d` is paired with `a` —
stale heads are skipped, the earliest live entry wins, and the pairing is
recorded symmetrically.  The selection is a deterministic function of the
queue order: no randomness, no priority. -/
theorem claim_C8 {m : Mgr} {d a : Str} {pre rest : List Str} {std sta : UserState}
    (hd : d ∉ m.available_set)
    (hq : m.available_users = pre ++ a :: rest)
    (hpre : ∀ x ∈ pre, x ∉ m.available_set)
    (ha : a ∈ m.available_set)
    (hda : ¬ (d = a))
    (hstd : mget m.user_states d = some std)
    (hsta : mget m.user_states a = some sta) :
    (find_partner d m).1 = some a ∧
    mget (find_partner d m).2.active_pairs d = some a ∧
    mget (find_partner d m).2.active_pairs a = some d := by
  have hqr : queueRemove d m = m := by rw [queueRemove, if_neg hd]
  have hne : ¬ ((queueRemove d m).available_users = []) := by
    rw [hqr, hq]
    simp
  have hpop : popLive (queueRemove d m).available_set (queueRemove d m).available_users =
      some (a, rest) := by
    rw [hqr, hq]
    exact popLive_skip pre a rest hpre ha
  have hfe := find_partner_some_eq hne hpop hda hstd hsta
  rw [hfe]
  have h1 : mget (mset (mset m.active_pairs d a) a d) d = some a := by
    rw [mget_mset, if_neg (fun he => hda he.symm), mget_mset, if_pos rfl]
  have h2 : mget (mset (mset m.active_pairs d a) a d) a = some d := by
    rw [mget_mset, if_pos rfl]
  exact ⟨rfl, h1, h2⟩

theorem claim_C8_witness :
    (find_partner "d".data mgrQ).1 = some "a".data ∧
    mget (find_partner "d".data mgrQ).2.active_pairs "d".data = some "a".data ∧
    mget (find_partner "d".data mgrQ).2.active_pairs "a".data = some "d".data :=
  @claim_C8 mgrQ "d".data "a".data ["s".data] ["b".data, "c".data] stD stA
    (by decide) rfl (by decide) (by decide) (by decide) (by decide) (by decide)

/-- C9 (amended): processing `#r` (or `#R`) with no content returns the usage
message and leaves the waiting queue, pair map and both mailboxes untouched;
the one mutation is the profile upsert of `get_or_create_user_state`, which
refreshes the caller\x27s `last_activity` (and creates the profile if absent) —
so the original "no mutation at all, including the last-activity timestamp"
reading is false, see `claim_C9_counterexample`. -/
theorem claim_C9 (u : Str) (nick : Option Str) (now : Nat) (m : Mgr) (msgRaw : Str)
    (hmsg : msgRaw = "#r".data ∨ msgRaw = "#R".data) :
    process_message u msgRaw nick now m =
      (usageMsg, (get_or_create_user_state u nick now m).2) ∧
    (get_or_create_user_state u nick now m).2.available_users = m.available_users ∧
    (get_or_create_user_state u nick now m).2.available_set = m.available_set ∧
    (get_or_create_user_state u nick now m).2.active_pairs = m.active_pairs ∧
    (get_or_create_user_state u nick now m).2.pending_notifications =
      m.pending_notifications ∧
    (get_or_create_user_state u nick now m).2.pending_messages = m.pending_messages := by
  refine ⟨?_, rfl, rfl, rfl, rfl, rfl⟩
  rcases hmsg with rfl | rfl
  · simp only [process_message]
    have hm : (if (get_or_create_user_state u nick now m).1.phone_masking_enabled
        then maskL "#r".data else "#r".data) = "#r".data := by
      cases (get_or_create_user_state u nick now m).1.phone_masking_enabled
      · rw [if_neg (by simp)]
      · rw [if_pos rfl]
        decide
    rw [hm]
    exact dispatch_rEmpty (by decide) (by decide) (by decide) (by decide) (by decide)
      (by decide) (by decide) (by decide) u now _
  · simp only [process_message]
    have hm : (if (get_or_create_user_state u nick now m).1.phone_masking_enabled
        then maskL "#R".data else "#R".data) = "#R".data := by
      cases (get_or_create_user_state u nick now m).1.phone_masking_enabled
      · rw [if_neg (by simp)]
      · rw [if_pos rfl]
        decide
    rw [hm]
    exact dispatch_rEmpty (by decide) (by decide) (by decide) (by decide) (by decide)
      (by decide) (by decide) (by decide) u now _

theorem claim_C9_witness :
    process_message "u".data "#r".data none 5 mgr0 =
      (usageMsg, (get_or_create_user_state "u".data none 5 mgr0).2) ∧
    (get_or_create_user_state "u".data none 5 mgr0).2.available_users =
      mgr0.available_users ∧
    (get_or_create_user_state "u".data none 5 mgr0).2.available_set =
      mgr0.available_set ∧
    (get_or_create_user_state "u".data none 5 mgr0).2.active_pairs =
      mgr0.active_pairs ∧
    (get_or_create_user_state "u".data none 5 mgr0).2.pending_notifications =
      mgr0.pending_notifications ∧
    (get_or_create_user_state "u".data none 5 mgr0).2.pending_messages =
      mgr0.pending_messages :=
  claim_C9 "u".data none 5 mgr0 "#r".data (Or.inl rfl)

theorem claim_C9_counterexample :
    (process_message "u".data "#r".data none 5 mgrC9).1 = usageMsg ∧
    (mget (process_message "u".data "#r".data none 5 mgrC9).2.user_states "u".data).map
      UserState.last_activity = some 5 ∧
    (mget mgrC9.user_states "u".data).map UserState.last_activity = some 0 := by decide

/-- C10: every successful pairing appends a Connected! notification for the
matched waiting partner, so that partner\x27s notification queue ends with the
connect note; by notification priority, the partner\x27s next relay attempt
returns exactly that note and appends nothing to any message queue. -/
theorem claim_C10 {m m2 : Mgr} {u p : Str}
    (hfp : find_partner u m = (some p, m2)) (txt : Str) :
    ∃ nick, ((mget m2.pending_notifications p).getD []).getLast? =
        some (connectNote nick) ∧
      (handle_message_routing p txt m2).1 = connectNote nick ∧
      (handle_message_routing p txt m2).2.pending_messages = m2.pending_messages := by
  obtain ⟨old, nick, hmg⟩ := find_partner_notes hfp
  have hgd : (mget m2.pending_notifications p).getD [] = old ++ [connectNote nick] := by
    rw [hmg]
    rfl
  obtain ⟨n, ns, heq⟩ :=
    List.exists_cons_of_ne_nil (show old ++ [connectNote nick] ≠ [] by simp)
  have hlast : (old ++ [connectNote nick]).getLastD n = connectNote nick := by
    simp
  refine ⟨nick, ?_, ?_, ?_⟩
  · rw [hgd]
    simp
  · rw [routing_note (hgd.trans heq) txt]
    show (n :: ns).getLastD n = connectNote nick
    rw [← heq]
    exact hlast
  · rw [routing_note (hgd.trans heq) txt]

theorem claim_C10_witness :
    ∃ nick, ((mget (find_partner "b".data mgrW10).2.pending_notifications
        "a".data).getD []).getLast? = some (connectNote nick) ∧
      (handle_message_routing "a".data "hi".data
        (find_partner "b".data mgrW10).2).1 = connectNote nick ∧
      (handle_message_routing "a".data "hi".data
        (find_partner "b".data mgrW10).2).2.pending_messages =
        (find_partner "b".data mgrW10).2.pending_messages :=
  @claim_C10 mgrW10 (find_partner "b".data mgrW10).2 "b".data "a".data (by decide)
    "hi".data
